import Mathlib

/-!
Verification development for the archivetube catalog synchronization engine.

The embedding models, from the repository sources:
  * `atcommon.py` : `upgradeDB` (the schema migration state machine for the
    aggregated store `tube.db`, target version `__dbversion__ = 5`),
  * `archivetube.py` : `reIndex` (one full synchronization pass: discovery of
    archive sources from the registered roots, per-source version gating,
    channel/video extraction and upsert, activation bookkeeping, and the final
    status-row update).

Modelling conventions:
  * Paths are lists of components, already normalized (no `.` / `..`), so
    `os.path.normpath(os.path.abspath(os.path.join(dirpath, rel)))` is
    `dirpath ++ rel` and `os.path.relpath(sub, dirpath)` of a path below
    `dirpath` drops the `dirpath` prefix.
  * SQLite statement failures are modelled by their actual causes in this
    schema: an `INSERT` into `channels` fails exactly when it would violate the
    `UNIQUE` constraint on `relpath` or on `abspath`; an `UPDATE ... WHERE
    relpath = ?` fails exactly when it would rewrite a row into an `abspath`
    collision.  `sys.exit` and uncaught Python exceptions are modelled as
    explicit error values.
  * The external archive database of one source is modelled as the data the
    two `SELECT`s of `reIndex` can observe, together with flags for the
    fallible operations (`sqlite3.connect`, the two reads); a `None` read
    result stands for the corresponding caught `sqlite3.Error`.
-/

namespace ArchiveTube

/-- A filesystem path, as a list of already-normalized components. -/
abbrev Path := List String

/-! ## Migration model (`atcommon.upgradeDB`)

The aggregated store as the migration code observes it: the recorded
`dbversion` (read from the `info` table; `none` models the
`except (sqlite3.Error, TypeError)` branch where no version can be read),
the column lists of the three tables the `ALTER TABLE` statements touch,
the rows of the `videos` table (opaque to the migration, which only ever
deletes them wholesale), and presence flags for the three statistics tables
created by the step to version 5. -/
structure TubeDB where
  version : Option Nat
  infoCols : List String
  channelCols : List String
  videoCols : List String
  videoRows : List String
  statsOverall : Bool
  statsWeekly : Bool
  statsPlots : Bool
deriving DecidableEq, Repr

/-- `__dbversion__` in `atcommon.py`: the target schema version of the
aggregated store. -/
def atDBVersion : Nat := 5

/-- `ALTER TABLE t ADD COLUMN c`: fails (with `sqlite3.Error`) iff the column
already exists, otherwise appends the column. -/
def alterAdd (cols : List String) (c : String) : Option (List String) :=
  if c ∈ cols then none else some (cols ++ [c])

/-- Migration step to version 2 (`atcommon.py` lines 214-229): delete every
row of `videos`, add the eight new columns, set `dbversion = 2`.  A failure
of any statement makes the whole step fail (the caller rolls back). -/
def stepTo2 (s : TubeDB) : Option TubeDB :=
  (alterAdd s.videoCols "language").bind fun c1 =>
  (alterAdd c1 "width").bind fun c2 =>
  (alterAdd c2 "height").bind fun c3 =>
  (alterAdd c3 "resolution").bind fun c4 =>
  (alterAdd c4 "viewcount").bind fun c5 =>
  (alterAdd c5 "likecount").bind fun c6 =>
  (alterAdd c6 "dislikecount").bind fun c7 =>
  (alterAdd c7 "statisticsupdated").bind fun c8 =>
  some { s with videoRows := [], videoCols := c8, version := some 2 }

/-- Migration step to version 3 (`atcommon.py` lines 231-238): add the
`active` columns, set `dbversion = 3`. -/
def stepTo3 (s : TubeDB) : Option TubeDB :=
  (alterAdd s.channelCols "active").bind fun cc =>
  (alterAdd s.videoCols "active").bind fun vc =>
  some { s with channelCols := cc, videoCols := vc, version := some 3 }

/-- Migration step to version 4 (`atcommon.py` lines 240-246): add the
`chapters` column, set `dbversion = 4`. -/
def stepTo4 (s : TubeDB) : Option TubeDB :=
  (alterAdd s.videoCols "chapters").bind fun vc =>
  some { s with videoCols := vc, version := some 4 }

/-- Migration step to version 5 (`atcommon.py` lines 248-317): add
`info.statisticsupdated`, create the three statistics tables
(`CREATE TABLE IF NOT EXISTS`, never fails), set `dbversion = 5`. -/
def stepTo5 (s : TubeDB) : Option TubeDB :=
  (alterAdd s.infoCols "statisticsupdated").bind fun ic =>
  some { s with infoCols := ic, statsOverall := true, statsWeekly := true,
                statsPlots := true, version := some 5 }

/-- Outcome of `upgradeDB`: `fatalUnsupported` models the
`sys.exit("ERROR: Unsupported database!")` when no version can be read;
`failed c` models `rollback(); close(); sys.exit(...)` after a step failure,
with `c` the state persisted on disk (everything up to and including the last
committed step); `ok` is a successful open. -/
inductive MigResult where
  | fatalUnsupported : MigResult
  | failed (committed : TubeDB) : MigResult
  | ok (s : TubeDB) : MigResult
deriving DecidableEq, Repr

/-- The `if version < N` cascade of `atcommon.upgradeDB` (lines 210-317),
with the mutable `version` variable threaded explicitly.  Each step's
`dbCon.commit()` makes its result the new persisted state; a step failure
leaves the previously committed state persisted. -/
def upgradeChain4 (s : TubeDB) (v : Nat) : MigResult :=
  if v < 4 then
    match stepTo4 s with
    | none => .failed s
    | some s4 =>
      match stepTo5 s4 with
      | none => .failed s4
      | some s5 => .ok s5
  else
    if v < 5 then
      match stepTo5 s with
      | none => .failed s
      | some s5 => .ok s5
    else .ok s

/-- Continuation of the cascade from the `if version < 3` guard. -/
def upgradeChain3 (s : TubeDB) (v : Nat) : MigResult :=
  if v < 3 then
    match stepTo3 s with
    | none => .failed s
    | some s3 => upgradeChain4 s3 3
  else upgradeChain4 s v

/-- Continuation of the cascade from the `if version < 2` guard. -/
def upgradeChain2 (s : TubeDB) (v : Nat) : MigResult :=
  if v < 2 then
    match stepTo2 s with
    | none => .failed s
    | some s2 => upgradeChain3 s2 2
  else upgradeChain3 s v

/-- `atcommon.upgradeDB` (lines 191-324): read the recorded version (failure
is the fatal unsupported-database exit), run the migration cascade when the
version is below the target, and otherwise just commit and return. -/
def upgradeDB (db : TubeDB) : MigResult :=
  match db.version with
  | none => .fatalUnsupported
  | some v => if v < atDBVersion then upgradeChain2 db v else .ok db

/-- The list of migration steps as (target version, step body) pairs, in the
order the cascade applies them. -/
def migSteps : List (Nat × (TubeDB → Option TubeDB)) :=
  [(2, stepTo2), (3, stepTo3), (4, stepTo4), (5, stepTo5)]

/-- Generic runner equivalent to the cascade: apply each listed step whose
target version exceeds the current version, threading the committed state. -/
def runMig : List (Nat × (TubeDB → Option TubeDB)) → TubeDB → Nat → MigResult
  | [], s, _ => .ok s
  | (n, f) :: rest, s, v =>
    if v < n then
      match f s with
      | none => .failed s
      | some s' => runMig rest s' n
    else runMig rest s v

/-- Prefix runner modelling an interruption: run the cascade but perform at
most `k` steps, returning the state committed so far (a step failure also
stops, likewise returning the committed state). -/
def runMigStop : Nat → List (Nat × (TubeDB → Option TubeDB)) → TubeDB → Nat → TubeDB
  | _, [], s, _ => s
  | 0, _ :: _, s, _ => s
  | Nat.succ k, (n, f) :: rest, s, v =>
    if v < n then
      match f s with
      | none => s
      | some s' => runMigStop k rest s' n
    else runMigStop (Nat.succ k) rest s v

/-! ## Catalog model (`archivetube.reIndex`)

The aggregated store as `reIndex` observes it, plus the filesystem and the
external archive databases it reads. -/

/-- The channel attributes copied verbatim from a source's `channel` row into
the catalog (`SELECT name,url,language,description,location,joined,links,
profile,profileformat,banner,bannerformat,videos,lastupdate FROM channel`). -/
structure ChannelData where
  name : String
  url : String
  language : String
  description : Option String
  location : Option String
  joined : Option String
  links : Option String
  profile : Option String
  profileformat : Option String
  banner : Option String
  bannerformat : Option String
  videos : Nat
  lastupdate : Nat
deriving DecidableEq, Repr

/-- The video attributes copied verbatim from a source's `videos` row into the
catalog (every selected column except `youtubeID` and `filename`, which the
loop treats specially). -/
structure VideoData where
  title : String
  timestamp : Nat
  description : Option String
  subtitles : Option String
  thumb : Option String
  thumbformat : Option String
  duration : Option Nat
  tags : Option String
  language : String
  width : Nat
  height : Nat
  resolution : String
  viewcount : Option Nat
  likecount : Option Nat
  dislikecount : Option Nat
  statisticsupdated : Nat
  chapters : Option String
deriving DecidableEq, Repr

/-- One row of a source archive's `videos` table: the external video ID, the
source-relative media file name (`info[4]`, rewritten to an absolute path at
extraction time), and the remaining attributes. -/
structure SrcVideo where
  youtubeID : String
  filename : String
  data : VideoData
deriving DecidableEq, Repr

/-- One row of the catalog's `channels` table: surrogate `id`
(`AUTOINCREMENT`), natural key `relpath` (`UNIQUE`), `abspath` (`UNIQUE`),
the copied attributes, and the `active` flag. -/
structure ChannelRow where
  id : Nat
  relpath : Path
  abspath : Path
  data : ChannelData
  active : Bool
deriving DecidableEq, Repr

/-- One row of the catalog's `videos` table: natural key `id` (the external
video ID, `PRIMARY KEY`), the channel foreign key, the absolute media file
path, the copied attributes, and the `active` flag. -/
structure VideoRow where
  id : String
  channelID : Nat
  filepath : Path
  data : VideoData
  active : Bool
deriving DecidableEq, Repr

/-- One row of the `archives` table (a registered source root), restricted to
the two columns `reIndex` selects: `relpath` and `recursive`. -/
structure Registration where
  relpath : Path
  recursive : Bool
deriving DecidableEq, Repr

/-- The single `info` status row of the catalog, restricted to the columns
`reIndex` touches or `createDB` initialises. -/
structure InfoRow where
  lastupdate : Nat
  channels : Nat
  videos : Nat
  dbversion : Nat
deriving DecidableEq, Repr

/-- The aggregated store (`tube.db`) as `reIndex` observes it.
`nextChannelId` models the `AUTOINCREMENT` counter of `channels.id`. -/
structure Catalog where
  info : InfoRow
  archives : List Registration
  channels : List ChannelRow
  videos : List VideoRow
  nextChannelId : Nat
deriving DecidableEq, Repr

/-- One source's own `archive.db` as the four fallible operations of the
per-source loop can observe it: whether `sqlite3.connect` succeeds; the
`dbversion` of the most recently written `channel` row (`none` models the
caught `(sqlite3.Error, TypeError)` when the column or row is absent); the
latest channel row's attributes (`none` models a caught `sqlite3.Error`
while reading); and the full `videos` table (`none` likewise). -/
structure ArchiveDB where
  connectOk : Bool
  version : Option Nat
  channel : Option ChannelData
  videoRows : Option (List SrcVideo)
deriving DecidableEq, Repr

/-- The filesystem: the set of directories, and the archive databases,
keyed by the directory containing the `archive.db` marker file. -/
structure Fs where
  dirs : List Path
  archiveDirs : List (Path × ArchiveDB)
deriving DecidableEq, Repr

/-- `__archivedbversion__` in `archivetube.py`: the minimum (and current)
supported source archive schema version. -/
def archiveDBVersion : Nat := 5

/-- The archive database stored in directory `p`, if `p` contains the
`archive.db` marker file. -/
def Fs.archiveAt (fs : Fs) (p : Path) : Option ArchiveDB :=
  (fs.archiveDirs.find? (fun e => e.1 == p)).map (·.2)

/-- Whether directory `p` contains the `archive.db` marker file
(`os.path.isfile(os.path.join(p, "archive.db"))`). -/
def Fs.hasArchive (fs : Fs) (p : Path) : Bool :=
  (fs.archiveAt p).isSome

/-- `os.listdir(p)` restricted to subdirectories (the loop filters by
`os.path.isdir`): the names of the immediate subdirectories of `p`. -/
def Fs.subdirNames (fs : Fs) (p : Path) : List String :=
  fs.dirs.filterMap fun d =>
    if d.length = p.length + 1 ∧ p <+: d then (d.drop p.length).head? else none

/-- The candidates contributed by one registered root (`archivetube.py` lines
140-148): for a recursive root, every immediate subdirectory containing the
marker file (as a path relative to the working directory); for a
non-recursive root, the stored `relpath` itself when its directory contains
the marker file. -/
def discoverOne (fs : Fs) (dirpath : Path) (reg : Registration) : List Path :=
  let abspath := dirpath ++ reg.relpath
  if reg.recursive then
    (fs.subdirNames abspath).filterMap fun name =>
      if fs.hasArchive (abspath ++ [name]) then some (reg.relpath ++ [name])
      else none
  else
    if fs.hasArchive abspath then [reg.relpath] else []

/-- Discovery over all registered roots (`archivetube.py` lines 136-148):
the concatenation, in registration order, of each root's candidates. -/
def discoverArchives (fs : Fs) (dirpath : Path) (regs : List Registration) :
    List Path :=
  regs.foldl (fun acc reg => acc ++ discoverOne fs dirpath reg) []

/-- `UPDATE channels SET active = 0; UPDATE videos SET active = 0;`
(`archivetube.py` lines 153-154). -/
def deactivateAll (c : Catalog) : Catalog :=
  { c with channels := c.channels.map fun r => { r with active := false },
           videos := c.videos.map fun w => { w with active := false } }

/-- The channel `INSERT` (`archivetube.py` lines 187-188): fails with
`sqlite3.Error` iff it would violate the `UNIQUE` constraint on `relpath` or
on `abspath`; otherwise appends a fresh row with the next surrogate ID and
`active = 1`. -/
def tryInsertChannel (c : Catalog) (rp ap : Path) (d : ChannelData) :
    Option Catalog :=
  if ∃ r ∈ c.channels, r.relpath = rp ∨ r.abspath = ap then none
  else some { c with
    channels := c.channels ++ [⟨c.nextChannelId, rp, ap, d, true⟩],
    nextChannelId := c.nextChannelId + 1 }

/-- The rows of `channels` after
`UPDATE channels SET abspath=?,...,active=1 WHERE relpath = ?`. -/
def updateChannelRows (rows : List ChannelRow) (rp ap : Path)
    (d : ChannelData) : List ChannelRow :=
  rows.map fun r =>
    if r.relpath = rp then { r with abspath := ap, data := d, active := true }
    else r

/-- The channel `UPDATE` fallback (`archivetube.py` lines 190-193): fails
with `sqlite3.Error` iff it actually rewrites a row into a violation of the
`UNIQUE` constraint on `abspath` — that is, iff some row matches the
`WHERE relpath = ?` clause and either a non-matching row already holds the
new `abspath`, or several rows match (they would all receive the same
`abspath`).  An `UPDATE` matching no row succeeds and changes nothing. -/
def tryUpdateChannel (c : Catalog) (rp ap : Path) (d : ChannelData) :
    Option Catalog :=
  if (∃ r ∈ c.channels, r.relpath = rp) ∧
      ((∃ r ∈ c.channels, r.relpath ≠ rp ∧ r.abspath = ap) ∨
        2 ≤ (c.channels.filter (fun r => r.relpath == rp)).length) then none
  else some { c with channels := updateChannelRows c.channels rp ap d }

/-- `SELECT id FROM channels WHERE relpath = ?` followed by `fetchone()`
(`archivetube.py` lines 197-198). -/
def selectChannelId (c : Catalog) (rp : Path) : Option Nat :=
  (c.channels.find? (fun r => r.relpath == rp)).map (·.id)

/-- Outcome of the channel write block (`archivetube.py` lines 185-200):
`written` carries the new catalog and the surrogate channel ID; `skipped`
models the caught `sqlite3.Error` of the `UPDATE` fallback (warning printed,
`continue`); `crash` models the uncaught `TypeError` at `r[0]` when the
`SELECT id` after a statement that raised no error finds no row. -/
inductive ChanWrite where
  | written (c : Catalog) (cid : Nat) : ChanWrite
  | skipped : ChanWrite
  | crash : ChanWrite
deriving DecidableEq, Repr

/-- The channel write block: `INSERT`, on `sqlite3.Error` fall back to
`UPDATE ... WHERE relpath = ?` (whose own `sqlite3.Error` is the per-source
`continue`), then read the surrogate ID back by `relpath`. -/
def writeChannel (c : Catalog) (rp ap : Path) (d : ChannelData) : ChanWrite :=
  match tryInsertChannel c rp ap d with
  | some c' =>
    match selectChannelId c' rp with
    | some cid => .written c' cid
    | none => .crash
  | none =>
    match tryUpdateChannel c rp ap d with
    | none => .skipped
    | some c' =>
      match selectChannelId c' rp with
      | some cid => .written c' cid
      | none => .crash

/-- The video upsert (`archivetube.py` lines 213-224): rewrite the stored
file name to an absolute path, `INSERT` with `active = 1`, and on
`sqlite3.Error` (the `PRIMARY KEY` on the external ID) fall back to
`UPDATE ... WHERE id = ?` of every other column.  Neither branch can violate
a constraint besides the primary key, so the upsert as a whole never fails. -/
def upsertVideo (c : Catalog) (cid : Nat) (ap : Path) (v : SrcVideo) :
    Catalog :=
  let fp := ap ++ [v.filename]
  if ∃ w ∈ c.videos, w.id = v.youtubeID then
    { c with videos := c.videos.map fun w =>
        if w.id = v.youtubeID then
          { w with channelID := cid, filepath := fp, data := v.data,
                   active := true }
        else w }
  else
    { c with videos := c.videos ++ [⟨v.youtubeID, cid, fp, v.data, true⟩] }

/-- Errors that abort a pass: `noArchives` models
`sys.exit("ERROR: No archives in database")`; `crash` models the uncaught
`TypeError` of the channel-ID read-back. -/
inductive PassErr where
  | noArchives : PassErr
  | crash : PassErr
deriving DecidableEq, Repr

/-- The body of the per-source loop (`archivetube.py` lines 157-230) for one
candidate `x`: open the archive, gate on its declared version (defaulting to
the lowest legacy version 1 when it cannot be read), read the channel row,
insert-or-update it, read the surrogate ID back, then read and upsert every
video.  Every caught error returns `.ok` with the state reached so far
(`continue`); only the uncaught `TypeError` escapes. -/
def processSource (fs : Fs) (dirpath : Path) (c : Catalog) (x : Path) :
    Except PassErr Catalog :=
  let ap := dirpath ++ x
  match fs.archiveAt ap with
  | none => .ok c
  | some adb =>
    if adb.connectOk = false then .ok c
    else if adb.version.getD 1 < archiveDBVersion then .ok c
    else
      match adb.channel with
      | none => .ok c
      | some d =>
        match writeChannel c x ap d with
        | .skipped => .ok c
        | .crash => .error .crash
        | .written c' cid =>
          match adb.videoRows with
          | none => .ok c'
          | some vs => .ok (vs.foldl (fun cc v => upsertVideo cc cid ap v) c')

/-- The per-source loop itself, over the discovered candidates in order. -/
def processAll (fs : Fs) (dirpath : Path) :
    List Path → Catalog → Except PassErr Catalog
  | [], c => .ok c
  | x :: xs, c =>
    match processSource fs dirpath c x with
    | .error e => .error e
    | .ok c' => processAll fs dirpath xs c'

/-- The final status-row write (`archivetube.py` lines 233-235): recompute
the active-row counts and stamp the pass time. -/
def updateInfo (c : Catalog) (now : Nat) : Catalog :=
  { c with info := { c.info with
      lastupdate := now,
      videos := c.videos.countP (·.active),
      channels := c.channels.countP (·.active) } }

/-- `archivetube.reIndex` (lines 125-235): discovery, the fatal no-archives
exit, wholesale deactivation, the per-source loop, and the status update.
`now` stands for the `int(time.time())` taken at the final write. -/
def reIndex (fs : Fs) (dirpath : Path) (c : Catalog) (now : Nat) :
    Except PassErr Catalog :=
  let archives := discoverArchives fs dirpath c.archives
  if archives = [] then .error .noArchives
  else
    match processAll fs dirpath archives (deactivateAll c) with
    | .error e => .error e
    | .ok c' => .ok (updateInfo c' now)

/-- One pass as the caller sees the persisted store (`main`, lines 83-91):
`dbCon.commit()` runs only when `reIndex` returns; `sys.exit` or an uncaught
exception terminates the process before the commit, so the uncommitted pass
is discarded and the store keeps its pre-pass content. -/
def runPass (fs : Fs) (dirpath : Path) (c : Catalog) (now : Nat) : Catalog :=
  match reIndex fs dirpath c now with
  | .ok c' => c'
  | .error _ => c

/-! ## Migration lemmas -/

theorem stepTo2_parts {s t : TubeDB} (h : stepTo2 s = some t) :
    t.videoRows = [] ∧ t.version = some 2 := by
  unfold stepTo2 at h
  obtain ⟨c1, h1, h⟩ := Option.bind_eq_some.mp h
  obtain ⟨c2, h2, h⟩ := Option.bind_eq_some.mp h
  obtain ⟨c3, h3, h⟩ := Option.bind_eq_some.mp h
  obtain ⟨c4, h4, h⟩ := Option.bind_eq_some.mp h
  obtain ⟨c5, h5, h⟩ := Option.bind_eq_some.mp h
  obtain ⟨c6, h6, h⟩ := Option.bind_eq_some.mp h
  obtain ⟨c7, h7, h⟩ := Option.bind_eq_some.mp h
  obtain ⟨c8, h8, h⟩ := Option.bind_eq_some.mp h
  injection h with h'
  subst h'
  exact ⟨rfl, rfl⟩

theorem stepTo3_parts {s t : TubeDB} (h : stepTo3 s = some t) :
    t.videoRows = s.videoRows ∧ t.version = some 3 := by
  unfold stepTo3 at h
  obtain ⟨cc, hc, h⟩ := Option.bind_eq_some.mp h
  obtain ⟨vc, hv, h⟩ := Option.bind_eq_some.mp h
  injection h with h'
  subst h'
  exact ⟨rfl, rfl⟩

theorem stepTo4_parts {s t : TubeDB} (h : stepTo4 s = some t) :
    t.videoRows = s.videoRows ∧ t.version = some 4 := by
  unfold stepTo4 at h
  obtain ⟨vc, hv, h⟩ := Option.bind_eq_some.mp h
  injection h with h'
  subst h'
  exact ⟨rfl, rfl⟩

theorem stepTo5_parts {s t : TubeDB} (h : stepTo5 s = some t) :
    t.videoRows = s.videoRows ∧ t.version = some 5 := by
  unfold stepTo5 at h
  obtain ⟨ic, hi, h⟩ := Option.bind_eq_some.mp h
  injection h with h'
  subst h'
  exact ⟨rfl, rfl⟩

theorem upgradeDB_ge_target {db : TubeDB} {v : Nat} (hv : db.version = some v)
    (h : atDBVersion ≤ v) : upgradeDB db = .ok db := by
  unfold upgradeDB
  rw [hv]
  show (if v < atDBVersion then upgradeChain2 db v else MigResult.ok db) =
    MigResult.ok db
  rw [if_neg (Nat.not_lt.mpr h)]

theorem upgradeDB_resume4 {s a : TubeDB} (hs : s.version = some 4)
    (h5 : stepTo5 s = some a) : upgradeDB s = .ok a := by
  unfold upgradeDB upgradeChain2 upgradeChain3 upgradeChain4
  rw [hs]
  norm_num [atDBVersion, h5]

theorem upgradeDB_resume3 {s a b : TubeDB} (hs : s.version = some 3)
    (h4 : stepTo4 s = some a) (h5 : stepTo5 a = some b) :
    upgradeDB s = .ok b := by
  unfold upgradeDB upgradeChain2 upgradeChain3 upgradeChain4
  rw [hs]
  norm_num [atDBVersion, h4, h5]

theorem upgradeDB_resume2 {s a b c : TubeDB} (hs : s.version = some 2)
    (h3 : stepTo3 s = some a) (h4 : stepTo4 a = some b)
    (h5 : stepTo5 b = some c) : upgradeDB s = .ok c := by
  unfold upgradeDB upgradeChain2 upgradeChain3 upgradeChain4
  rw [hs]
  norm_num [atDBVersion, h3, h4, h5]

theorem upgradeDB_resume1 {s a b c d : TubeDB} (hs : s.version = some 1)
    (h2 : stepTo2 s = some a) (h3 : stepTo3 a = some b)
    (h4 : stepTo4 b = some c) (h5 : stepTo5 c = some d) :
    upgradeDB s = .ok d := by
  unfold upgradeDB upgradeChain2 upgradeChain3 upgradeChain4
  rw [hs]
  norm_num [atDBVersion, h2, h3, h4, h5]

theorem upgradeChain4_eq_runMig (s : TubeDB) (v : Nat) :
    upgradeChain4 s v = runMig [(4, stepTo4), (5, stepTo5)] s v := by
  by_cases h4 : v < 4
  · simp only [upgradeChain4, runMig, if_pos h4]
    rcases stepTo4 s with _ | s4
    · rfl
    · show _ = runMig [(5, stepTo5)] s4 4
      simp only [runMig, if_pos (show 4 < 5 by norm_num)]
  · by_cases h5 : v < 5
    · simp only [upgradeChain4, runMig, if_neg h4, if_pos h5]
    · simp only [upgradeChain4, runMig, if_neg h4, if_neg h5]

theorem upgradeChain3_eq_runMig (s : TubeDB) (v : Nat) :
    upgradeChain3 s v = runMig [(3, stepTo3), (4, stepTo4), (5, stepTo5)] s v := by
  by_cases h3 : v < 3
  · simp only [upgradeChain3, runMig, if_pos h3]
    rcases stepTo3 s with _ | s3
    · rfl
    · exact upgradeChain4_eq_runMig s3 3
  · simp only [upgradeChain3, runMig, if_neg h3]
    exact upgradeChain4_eq_runMig s v

theorem upgradeChain2_eq_runMig (s : TubeDB) (v : Nat) :
    upgradeChain2 s v = runMig migSteps s v := by
  by_cases h2 : v < 2
  · simp only [upgradeChain2, migSteps, runMig, if_pos h2]
    rcases stepTo2 s with _ | s2
    · rfl
    · exact upgradeChain3_eq_runMig s2 2
  · simp only [upgradeChain2, migSteps, runMig, if_neg h2]
    exact upgradeChain3_eq_runMig s v

/-- The listed version numbers are consecutive, starting right above `m`. -/
def consecFrom : Nat → List Nat → Prop
  | _, [] => True
  | m, n :: rest => n = m + 1 ∧ consecFrom n rest

theorem runMigStop_zero (steps : List (Nat × (TubeDB → Option TubeDB)))
    (s : TubeDB) (v : Nat) : runMigStop 0 steps s v = s := by
  cases steps <;> rfl

theorem runMig_skip {n : Nat} {g : TubeDB → Option TubeDB}
    {rest : List (Nat × (TubeDB → Option TubeDB))} {s : TubeDB} {v : Nat}
    (h : ¬ v < n) : runMig ((n, g) :: rest) s v = runMig rest s v := by
  simp [runMig, h]

theorem runMigStop_skip {k n : Nat} {g : TubeDB → Option TubeDB}
    {rest : List (Nat × (TubeDB → Option TubeDB))} {s : TubeDB} {v : Nat}
    (h : ¬ v < n) : runMigStop k ((n, g) :: rest) s v = runMigStop k rest s v := by
  cases k with
  | zero => rw [runMigStop_zero, runMigStop_zero]
  | succ k' => simp [runMigStop, h]

theorem runMig_ok_spec (steps : List (Nat × (TubeDB → Option TubeDB))) :
    ∀ (s : TubeDB) (v : Nat) (f : TubeDB),
      (∀ p ∈ steps, ∀ a b, p.2 a = some b → b.version = some p.1) →
      s.version = some v →
      consecFrom v (steps.map Prod.fst) →
      runMig steps s v = .ok f →
      (∀ k ≤ steps.length,
        (runMigStop k steps s v).version = some (v + k) ∧
        runMig steps (runMigStop k steps s v) (v + k) = .ok f) ∧
      runMigStop steps.length steps s v = f := by
  induction steps with
  | nil =>
    intro s v f _ hv _ hok
    simp only [runMig] at hok
    injection hok with hok
    subst hok
    refine ⟨?_, by rw [List.length_nil, runMigStop_zero]⟩
    intro k hk
    simp only [List.length_nil, Nat.le_zero] at hk
    subst hk
    rw [runMigStop_zero]
    exact ⟨hv, rfl⟩
  | cons p rest ih =>
    rcases p with ⟨n, g⟩
    intro s v f hset hv hconsec hok
    obtain ⟨hn, hrest⟩ : n = v + 1 ∧ consecFrom n (rest.map Prod.fst) := hconsec
    have hguard : v < n := by omega
    rcases hg : g s with _ | t
    · rw [runMig, if_pos hguard, hg] at hok
      cases hok
    · have hokrest : runMig rest t n = .ok f := by
        rw [runMig, if_pos hguard, hg] at hok
        exact hok
      have htv : t.version = some n := hset (n, g) (by simp) s t hg
      have IH := ih t n f (fun p hp => hset p (by simp [hp])) htv hrest hokrest
      constructor
      · intro k hk
        cases k with
        | zero =>
          rw [runMigStop_zero]
          exact ⟨hv, hok⟩
        | succ k' =>
          have hstop : runMigStop (k' + 1) ((n, g) :: rest) s v =
              runMigStop k' rest t n := by
            simp [runMigStop, hguard, hg]
          rw [hstop]
          have hk' : k' ≤ rest.length := by
            simp only [List.length_cons] at hk
            omega
          have hpart := IH.1 k' hk'
          refine ⟨by rw [hpart.1]; congr 1; omega, ?_⟩
          rw [runMig_skip (show ¬ v + (k' + 1) < n by omega)]
          rw [show v + (k' + 1) = n + k' by omega]
          exact hpart.2
      · have hlen : runMigStop ((n, g) :: rest).length ((n, g) :: rest) s v =
            runMigStop rest.length rest t n := by
          simp [runMigStop, hguard, hg]
        rw [hlen]
        exact IH.2

theorem runMig_failed_spec (steps : List (Nat × (TubeDB → Option TubeDB))) :
    ∀ (s : TubeDB) (v : Nat) (c : TubeDB),
      (∀ p ∈ steps, ∀ a b, p.2 a = some b → b.version = some p.1) →
      s.version = some v →
      consecFrom v (steps.map Prod.fst) →
      runMig steps s v = .failed c →
      ∃ k, k < steps.length ∧ c = runMigStop k steps s v ∧
        c.version = some (v + k) := by
  induction steps with
  | nil =>
    intro s v c _ _ _ hbad
    simp only [runMig] at hbad
    cases hbad
  | cons p rest ih =>
    rcases p with ⟨n, g⟩
    intro s v c hset hv hconsec hbad
    obtain ⟨hn, hrest⟩ : n = v + 1 ∧ consecFrom n (rest.map Prod.fst) := hconsec
    have hguard : v < n := by omega
    rcases hg : g s with _ | t
    · rw [runMig, if_pos hguard, hg] at hbad
      injection hbad with hbad
      refine ⟨0, by simp, ?_, ?_⟩
      · rw [runMigStop_zero, hbad]
      · rw [← hbad]
        simpa using hv
    · have hbadrest : runMig rest t n = .failed c := by
        rw [runMig, if_pos hguard, hg] at hbad
        exact hbad
      have htv : t.version = some n := hset (n, g) (by simp) s t hg
      obtain ⟨k, hk, hc, hcv⟩ :=
        ih t n c (fun p hp => hset p (by simp [hp])) htv hrest hbadrest
      refine ⟨k + 1, by simp only [List.length_cons]; omega, ?_, ?_⟩
      · rw [hc]
        simp [runMigStop, hguard, hg]
      · rw [hcv]
        congr 1
        omega

theorem migSteps_set :
    ∀ p ∈ migSteps, ∀ a b : TubeDB, p.2 a = some b → b.version = some p.1 := by
  intro p hp a b hab
  simp only [migSteps, List.mem_cons, List.not_mem_nil, or_false] at hp
  rcases hp with rfl | rfl | rfl | rfl
  · exact (stepTo2_parts hab).2
  · exact (stepTo3_parts hab).2
  · exact (stepTo4_parts hab).2
  · exact (stepTo5_parts hab).2

theorem upgradeDB_eq_ok_of_runMig {s f : TubeDB} {w : Nat}
    (hsv : s.version = some w) (hrm : runMig migSteps s w = .ok f) :
    upgradeDB s = .ok f := by
  by_cases hw : w < atDBVersion
  · unfold upgradeDB
    rw [hsv]
    show (if w < atDBVersion then upgradeChain2 s w else MigResult.ok s) = _
    rw [if_pos hw, upgradeChain2_eq_runMig]
    exact hrm
  · have hge : atDBVersion ≤ w := Nat.not_lt.mp hw
    have hge5 : 5 ≤ w := hge
    have hok : runMig migSteps s w = .ok s := by
      rw [show migSteps = [(2, stepTo2), (3, stepTo3), (4, stepTo4), (5, stepTo5)]
        from rfl]
      rw [runMig_skip (by omega), runMig_skip (by omega), runMig_skip (by omega),
        runMig_skip (by omega)]
      rfl
    rw [hok] at hrm
    injection hrm with hrm
    rw [← hrm]
    exact upgradeDB_ge_target hsv hge

theorem migration_machine_aux (db f : TubeDB) (v : Nat)
    (hv : db.version = some v)
    (suffix : List (Nat × (TubeDB → Option TubeDB)))
    (hset : ∀ p ∈ suffix, ∀ a b : TubeDB, p.2 a = some b → b.version = some p.1)
    (hconsec : consecFrom v (suffix.map Prod.fst))
    (hrun : ∀ (x : TubeDB) (w : Nat), v ≤ w →
      runMig migSteps x w = runMig suffix x w)
    (hstop : ∀ (k : Nat) (x : TubeDB) (w : Nat), v ≤ w →
      runMigStop k migSteps x w = runMigStop k suffix x w)
    (hlen : suffix.length = atDBVersion - v)
    (hvlt : v < atDBVersion) :
    (upgradeDB db = .ok f →
      (∀ k ≤ atDBVersion - v,
        (runMigStop k migSteps db v).version = some (v + k) ∧
        upgradeDB (runMigStop k migSteps db v) = .ok f) ∧
      runMigStop (atDBVersion - v) migSteps db v = f) ∧
    (∀ c, upgradeDB db = .failed c →
      ∃ k, k < atDBVersion - v ∧ c = runMigStop k migSteps db v ∧
        c.version = some (v + k)) := by
  have hup : upgradeDB db = runMig suffix db v := by
    unfold upgradeDB
    rw [hv]
    show (if v < atDBVersion then upgradeChain2 db v else MigResult.ok db) = _
    rw [if_pos hvlt, upgradeChain2_eq_runMig, hrun db v (le_refl v)]
  constructor
  · intro hok
    have hrm : runMig suffix db v = .ok f := by rw [← hup]; exact hok
    have H := runMig_ok_spec suffix db v f hset hv hconsec hrm
    constructor
    · intro k hk
      have hk' : k ≤ suffix.length := by rw [hlen]; exact hk
      obtain ⟨hver, hrm2⟩ := H.1 k hk'
      rw [hstop k db v (le_refl v)]
      refine ⟨hver, ?_⟩
      refine upgradeDB_eq_ok_of_runMig hver ?_
      rw [hrun _ (v + k) (by omega)]
      exact hrm2
    · rw [hstop _ db v (le_refl v), ← hlen]
      exact H.2
  · intro c hbad
    have hrm : runMig suffix db v = .failed c := by rw [← hup]; exact hbad
    obtain ⟨k, hk, hc, hcv⟩ := runMig_failed_spec suffix db v c hset hv hconsec hrm
    exact ⟨k, by rw [← hlen]; exact hk,
      by rw [hstop k db v (le_refl v)]; exact hc, hcv⟩

/-- C4: opening an aggregated store at version `V` strictly below the target
applies the migration steps for `V+1, V+2, …` up to the target in strictly
increasing order (the literal `if version < N` cascade equals the ordered
step machine, and after `k` committed steps the committed version counter is
exactly `V + k`); each step commits the version counter as its final action,
so an interruption after step `N` leaves the committed store at version `N`
and reopening it resumes to the same final store; and a failure inside a
step persists only the fully committed prefix (the failing step's changes
are rolled back) and aborts startup. -/
theorem upgradeDB_migration_machine (db f : TubeDB) (v : Nat)
    (hv : db.version = some v) (hlow : 1 ≤ v) (hhigh : v < atDBVersion) :
    upgradeChain2 db v = runMig migSteps db v ∧
    runMigStop 0 migSteps db v = db ∧
    (upgradeDB db = .ok f →
      (∀ k ≤ atDBVersion - v,
        (runMigStop k migSteps db v).version = some (v + k) ∧
        upgradeDB (runMigStop k migSteps db v) = .ok f) ∧
      runMigStop (atDBVersion - v) migSteps db v = f) ∧
    (∀ c, upgradeDB db = .failed c →
      ∃ k, k < atDBVersion - v ∧ c = runMigStop k migSteps db v ∧
        c.version = some (v + k)) := by
  have hhigh5 : v < 5 := hhigh
  have AUX : (upgradeDB db = .ok f →
      (∀ k ≤ atDBVersion - v,
        (runMigStop k migSteps db v).version = some (v + k) ∧
        upgradeDB (runMigStop k migSteps db v) = .ok f) ∧
      runMigStop (atDBVersion - v) migSteps db v = f) ∧
    (∀ c, upgradeDB db = .failed c →
      ∃ k, k < atDBVersion - v ∧ c = runMigStop k migSteps db v ∧
        c.version = some (v + k)) := by
    interval_cases v
    · exact migration_machine_aux db f 1 hv migSteps migSteps_set
        (by norm_num [migSteps, consecFrom])
        (fun x w _ => rfl) (fun k x w _ => rfl)
        (by norm_num [migSteps, atDBVersion]) hhigh
    · exact migration_machine_aux db f 2 hv
        [(3, stepTo3), (4, stepTo4), (5, stepTo5)]
        (fun p hp => migSteps_set p
          (by simp only [migSteps, List.mem_cons] at hp ⊢; tauto))
        (by norm_num [consecFrom])
        (fun x w hw => by
          rw [show migSteps = (2, stepTo2) ::
            [(3, stepTo3), (4, stepTo4), (5, stepTo5)] from rfl]
          exact runMig_skip (by omega))
        (fun k x w hw => by
          rw [show migSteps = (2, stepTo2) ::
            [(3, stepTo3), (4, stepTo4), (5, stepTo5)] from rfl]
          exact runMigStop_skip (by omega))
        (by norm_num [atDBVersion]) hhigh
    · exact migration_machine_aux db f 3 hv [(4, stepTo4), (5, stepTo5)]
        (fun p hp => migSteps_set p
          (by simp only [migSteps, List.mem_cons] at hp ⊢; tauto))
        (by norm_num [consecFrom])
        (fun x w hw => by
          rw [show migSteps = (2, stepTo2) :: (3, stepTo3) ::
            [(4, stepTo4), (5, stepTo5)] from rfl]
          rw [runMig_skip (by omega), runMig_skip (by omega)])
        (fun k x w hw => by
          rw [show migSteps = (2, stepTo2) :: (3, stepTo3) ::
            [(4, stepTo4), (5, stepTo5)] from rfl]
          rw [runMigStop_skip (by omega), runMigStop_skip (by omega)])
        (by norm_num [atDBVersion]) hhigh
    · exact migration_machine_aux db f 4 hv [(5, stepTo5)]
        (fun p hp => migSteps_set p
          (by simp only [migSteps, List.mem_cons] at hp ⊢; tauto))
        (by norm_num [consecFrom])
        (fun x w hw => by
          rw [show migSteps = (2, stepTo2) :: (3, stepTo3) :: (4, stepTo4) ::
            [(5, stepTo5)] from rfl]
          rw [runMig_skip (by omega), runMig_skip (by omega),
            runMig_skip (by omega)])
        (fun k x w hw => by
          rw [show migSteps = (2, stepTo2) :: (3, stepTo3) :: (4, stepTo4) ::
            [(5, stepTo5)] from rfl]
          rw [runMigStop_skip (by omega), runMigStop_skip (by omega),
            runMigStop_skip (by omega)])
        (by norm_num [atDBVersion]) hhigh
  exact ⟨upgradeChain2_eq_runMig db v, runMigStop_zero _ _ _, AUX.1, AUX.2⟩

/-- Concrete aggregated store at schema version 3, used as a witness. -/
def dbMigW : TubeDB := ⟨some 3, ["id"], ["id"], ["id"], ["r1"], false, false, false⟩

/-- The store `dbMigW` after a successful migration to the target version. -/
def dbMigWF : TubeDB :=
  ⟨some 5, ["id", "statisticsupdated"], ["id"], ["id", "chapters"], ["r1"],
    true, true, true⟩

/-- Witness for C4: the migration machine theorem applied to a concrete
version-3 store, observing the committed state after one step (version 4),
resumability from it, and the final state after both steps. -/
theorem upgradeDB_migration_machine_witness :
    (runMigStop 1 migSteps dbMigW 3).version = some 4 ∧
    upgradeDB (runMigStop 1 migSteps dbMigW 3) = .ok dbMigWF ∧
    runMigStop 2 migSteps dbMigW 3 = dbMigWF := by
  have hok : upgradeDB dbMigW = .ok dbMigWF := by decide
  have H := (upgradeDB_migration_machine dbMigW dbMigWF 3 rfl (by norm_num)
    (by norm_num [atDBVersion])).2.2.1 hok
  have h1 := H.1 1 (by norm_num [atDBVersion])
  refine ⟨h1.1, h1.2, ?_⟩
  have h2 := H.2
  rwa [show atDBVersion - 3 = 2 from by norm_num [atDBVersion]] at h2

/-- C5 counterexample: an aggregated store recording schema version 6,
strictly above the target 5, is opened successfully (and unchanged) rather
than rejected with an unsupported-store error. -/
theorem upgradeDB_future_version_cex :
    atDBVersion < 6 ∧
    upgradeDB ⟨some 6, [], [], [], ["row"], false, false, false⟩ =
      .ok ⟨some 6, [], [], [], ["row"], false, false, false⟩ := by
  constructor
  · norm_num [atDBVersion]
  · rfl

/-- C5 as amended: a store whose recorded schema version is at least the
engine's target opens successfully and entirely unchanged — the engine
applies no migration to it and never rolls a future schema back; it does not
reject it either (the unsupported-store exit fires only when no version can
be read at all). -/
theorem upgradeDB_future_version_opens (db : TubeDB) (v : Nat)
    (hv : db.version = some v) (h : atDBVersion ≤ v) :
    upgradeDB db = .ok db :=
  upgradeDB_ge_target hv h

/-- Witness for the amended C5 at a concrete version-9 store. -/
theorem upgradeDB_future_version_opens_witness :
    upgradeDB ⟨some 9, ["a"], ["b"], ["c"], ["r"], false, false, false⟩ =
      .ok ⟨some 9, ["a"], ["b"], ["c"], ["r"], false, false, false⟩ :=
  upgradeDB_future_version_opens _ 9 rfl (by norm_num [atDBVersion])

/-- C10: a store at a recorded version strictly below 2 that migrates
successfully reaches the target version with an empty `videos` table: the
step to version 2 deletes every video row before adding the new columns, and
no later step repopulates the table. -/
theorem upgradeDB_lt2_eq {db : TubeDB} {v : Nat} (hv : db.version = some v)
    (h2 : v < 2) :
    upgradeDB db = match stepTo2 db with
      | none => .failed db
      | some s2 => upgradeChain3 s2 2 := by
  unfold upgradeDB
  rw [hv]
  show (if v < atDBVersion then upgradeChain2 db v else MigResult.ok db) = _
  rw [if_pos (show v < atDBVersion from by show v < 5; omega)]
  unfold upgradeChain2
  rw [if_pos h2]

/-- C10: a store at a recorded version strictly below 2 that migrates
successfully reaches the target version with an empty `videos` table: the
step to version 2 deletes every video row before adding the new columns, and
no later step repopulates the table. -/
theorem upgradeDB_v1_clears_videos (db f : TubeDB) (v : Nat)
    (hv : db.version = some v) (h2 : v < 2) (hok : upgradeDB db = .ok f) :
    f.videoRows = [] ∧ f.version = some atDBVersion := by
  rw [upgradeDB_lt2_eq hv h2] at hok
  rcases hs2 : stepTo2 db with _ | a
  · simp only [hs2] at hok
    exact MigResult.noConfusion hok
  · simp only [hs2] at hok
    unfold upgradeChain3 at hok
    rw [if_pos (by norm_num)] at hok
    rcases hs3 : stepTo3 a with _ | b
    · simp only [hs3] at hok
      exact MigResult.noConfusion hok
    · simp only [hs3] at hok
      unfold upgradeChain4 at hok
      rw [if_pos (by norm_num)] at hok
      rcases hs4 : stepTo4 b with _ | c
      · simp only [hs4] at hok
        exact MigResult.noConfusion hok
      · simp only [hs4] at hok
        rcases hs5 : stepTo5 c with _ | d
        · simp only [hs5] at hok
          exact MigResult.noConfusion hok
        · simp only [hs5, MigResult.ok.injEq] at hok
          subst hok
          have e2 := stepTo2_parts hs2
          have e3 := stepTo3_parts hs3
          have e4 := stepTo4_parts hs4
          have e5 := stepTo5_parts hs5
          refine ⟨?_, e5.2⟩
          rw [e5.1, e4.1, e3.1, e2.1]

/-- Concrete aggregated store at legacy schema version 1. -/
def dbMigV1 : TubeDB := ⟨some 1, ["id"], ["id"], ["id"], ["r1", "r2"], false,
  false, false⟩

/-- The store `dbMigV1` after a successful migration: videos cleared. -/
def dbMigV1F : TubeDB :=
  ⟨some 5, ["id", "statisticsupdated"], ["id", "active"],
    ["id", "language", "width", "height", "resolution", "viewcount",
      "likecount", "dislikecount", "statisticsupdated", "active", "chapters"],
    [], true, true, true⟩

/-- Witness for C10 at a concrete version-1 store holding two video rows. -/
theorem upgradeDB_v1_clears_videos_witness :
    upgradeDB dbMigV1 = .ok dbMigV1F ∧
    dbMigV1F.videoRows = [] ∧ dbMigV1F.version = some atDBVersion := by
  have hok : upgradeDB dbMigV1 = .ok dbMigV1F := by decide
  exact ⟨hok, upgradeDB_v1_clears_videos dbMigV1 dbMigV1F 1 rfl (by norm_num) hok⟩

/-! ## Discovery and pass lemmas -/

theorem mem_subdirNames {fs : Fs} {q : Path} {name : String} :
    name ∈ fs.subdirNames q ↔ q ++ [name] ∈ fs.dirs := by
  unfold Fs.subdirNames
  rw [List.mem_filterMap]
  constructor
  · rintro ⟨d, hd, hname⟩
    split at hname
    · rename_i hcond
      obtain ⟨hlen, hpre⟩ := hcond
      obtain ⟨t, rfl⟩ := hpre
      rw [List.length_append] at hlen
      have ht1 : t.length = 1 := by omega
      rw [List.length_eq_one] at ht1
      obtain ⟨a, rfl⟩ := ht1
      rw [List.drop_left] at hname
      simp only [List.head?_cons, Option.some.injEq] at hname
      subst hname
      exact hd
    · cases hname
  · intro hmem
    refine ⟨q ++ [name], hmem, ?_⟩
    rw [if_pos ⟨by simp, List.prefix_append q [name]⟩]
    rw [List.drop_left]
    rfl

/-- C3: when discovery over the registered roots yields no candidate, the
pass aborts with the fatal no-sources error before mutating anything, and
the committed catalog — status row, channels, videos, everything — is
exactly the pre-pass state. -/
theorem reIndex_no_archives (fs : Fs) (dirpath : Path) (c : Catalog) (now : Nat)
    (h : discoverArchives fs dirpath c.archives = []) :
    reIndex fs dirpath c now = .error .noArchives ∧
    runPass fs dirpath c now = c := by
  have h1 : reIndex fs dirpath c now = .error .noArchives := by
    unfold reIndex
    simp only [h, if_pos]
  refine ⟨h1, ?_⟩
  unfold runPass
  rw [h1]

/-- Sample channel attributes used by concrete witnesses. -/
def sampleCD : ChannelData :=
  ⟨"Alice", "u", "en", none, none, none, none, none, none, none, none, 3, 11⟩

/-- Sample video attributes used by concrete witnesses. -/
def sampleVD : VideoData :=
  ⟨"t", 5, none, none, none, none, some 60, none, "en", 640, 480, "480p",
    none, none, none, 9, none⟩

/-- A catalog with one committed channel and video but an empty registry. -/
def catNoReg : Catalog :=
  ⟨⟨7, 1, 1, 4⟩, [], [⟨1, ["a"], ["w", "a"], sampleCD, true⟩],
    [⟨"v1", 1, ["w", "a", "f1"], sampleVD, true⟩], 2⟩

/-- Witness for C3: a registry-less catalog discovers nothing, and the pass
aborts leaving the prior committed rows and status untouched. -/
theorem reIndex_no_archives_witness :
    discoverArchives ⟨[["w"]], []⟩ ["w"] catNoReg.archives = [] ∧
    reIndex ⟨[["w"]], []⟩ ["w"] catNoReg 99 = .error .noArchives ∧
    runPass ⟨[["w"]], []⟩ ["w"] catNoReg 99 = catNoReg := by
  have h : discoverArchives ⟨[["w"]], []⟩ ["w"] catNoReg.archives = [] := rfl
  have H := reIndex_no_archives ⟨[["w"]], []⟩ ["w"] catNoReg 99 h
  exact ⟨h, H.1, H.2⟩

/-- C6: the declared schema version of a source is the one recorded in its
most recently written channel row (the model's `version` field), defaulting
to the lowest legacy version 1 when it cannot be read; a source below the
engine's minimum — in particular any source with an unreadable version — is
skipped in place: the per-source step returns the catalog unchanged, so the
source contributes no rows and no extraction happens for it. -/
theorem processSource_version_gate (fs : Fs) (dirpath : Path) (c : Catalog)
    (x : Path) (adb : ArchiveDB)
    (hadb : fs.archiveAt (dirpath ++ x) = some adb)
    (hconn : adb.connectOk = true) :
    (adb.version = none → processSource fs dirpath c x = .ok c) ∧
    (adb.version.getD 1 < archiveDBVersion →
      processSource fs dirpath c x = .ok c) := by
  constructor
  · intro hnone
    unfold processSource
    simp only [hadb, hconn, hnone]
    norm_num [archiveDBVersion]
  · intro hver
    unfold processSource
    simp only [hadb, hconn]
    simp [hver]

/-- A source archive carrying an old declared version (3 < 5). -/
def adbOld : ArchiveDB := ⟨true, some 3, some sampleCD, some []⟩

/-- A source archive whose version cannot be read at all. -/
def adbNoVer : ArchiveDB := ⟨true, none, some sampleCD, some []⟩

/-- A filesystem holding one outdated-version source and one source whose
version cannot be read. -/
def fsGate : Fs :=
  ⟨[["w"], ["w", "s"], ["w", "t"]],
    [(["w", "s"], adbOld), (["w", "t"], adbNoVer)]⟩

/-- Witness for C6: both an explicit version 3 and an absent version
(defaulted to 1) are below the minimum 5, and the per-source step leaves the
catalog untouched in both cases. -/
theorem processSource_version_gate_witness :
    processSource fsGate ["w"] catNoReg ["s"] = .ok catNoReg ∧
    processSource fsGate ["w"] catNoReg ["t"] = .ok catNoReg := by
  constructor
  · exact (processSource_version_gate fsGate ["w"] catNoReg ["s"] adbOld
      (by decide) rfl).2 (by norm_num [adbOld, archiveDBVersion])
  · exact (processSource_version_gate fsGate ["w"] catNoReg ["t"] adbNoVer
      (by decide) rfl).1 rfl

/-- C7: per registered root, discovery yields — for a non-recursive root —
the registration's own path as the single candidate exactly when its
directory holds the `archive.db` marker (and nothing otherwise), and — for a
recursive root — exactly the immediate marker-bearing subdirectories of the
root, each as the root's relative path extended by the subdirectory name. -/
theorem discoverOne_spec (fs : Fs) (dirpath : Path) (reg : Registration) :
    (reg.recursive = false →
      discoverOne fs dirpath reg =
        if fs.hasArchive (dirpath ++ reg.relpath) then [reg.relpath] else []) ∧
    (reg.recursive = true → ∀ p : Path,
      p ∈ discoverOne fs dirpath reg ↔
        ∃ name : String, dirpath ++ reg.relpath ++ [name] ∈ fs.dirs ∧
          fs.hasArchive (dirpath ++ reg.relpath ++ [name]) ∧
          p = reg.relpath ++ [name]) := by
  constructor
  · intro hrec
    unfold discoverOne
    rw [hrec]
    simp
  · intro hrec p
    unfold discoverOne
    rw [hrec]
    simp only [if_true, List.mem_filterMap]
    constructor
    · rintro ⟨name, hname, hp⟩
      split at hp
      · rename_i hmark
        injection hp with hp
        exact ⟨name, mem_subdirNames.mp hname, hmark, hp.symm⟩
      · cases hp
    · rintro ⟨name, hdir, hmark, rfl⟩
      refine ⟨name, mem_subdirNames.mpr hdir, ?_⟩
      rw [if_pos hmark]

/-- A working directory with a recursive root holding subdirectories `s1`,
`s2` (with markers) and `s3` (without). -/
def fsRec : Fs :=
  ⟨[["w"], ["w", "root"], ["w", "root", "s1"], ["w", "root", "s2"],
      ["w", "root", "s3"]],
    [(["w", "root", "s1"], ⟨true, some 5, some sampleCD, some []⟩),
      (["w", "root", "s2"], ⟨true, some 5, some sampleCD, some []⟩)]⟩

/-- Witness for C7: the recursive root yields exactly its two marker-bearing
subdirectories (in particular their count is two), and a non-recursive
registration of the marker-less subdirectory yields nothing while one of a
marker-bearing subdirectory yields itself. -/
theorem discoverOne_spec_witness :
    discoverOne fsRec ["w"] ⟨["root"], true⟩ =
      [["root", "s1"], ["root", "s2"]] ∧
    (["root", "s1"] ∈ discoverOne fsRec ["w"] ⟨["root"], true⟩ ↔
      ∃ name : String, ["w", "root"] ++ [name] ∈ fsRec.dirs ∧
        fsRec.hasArchive (["w", "root"] ++ [name]) ∧
        (["root", "s1"] : Path) = ["root"] ++ [name]) ∧
    discoverOne fsRec ["w"] ⟨["root", "s3"], false⟩ = [] ∧
    discoverOne fsRec ["w"] ⟨["root", "s2"], false⟩ = [["root", "s2"]] := by
  refine ⟨rfl, ?_, ?_, ?_⟩
  · exact (discoverOne_spec fsRec ["w"] ⟨["root"], true⟩).2 rfl ["root", "s1"]
  · rw [(discoverOne_spec fsRec ["w"] ⟨["root", "s3"], false⟩).1 rfl]
    rfl
  · rw [(discoverOne_spec fsRec ["w"] ⟨["root", "s2"], false⟩).1 rfl]
    rfl

/-- C8: whenever a pass completes and commits, the status row holds exactly
the number of active channel rows, the number of active video rows, and the
timestamp taken at the final status write — independently of how many
sources succeeded or failed along the way. -/
theorem reIndex_summary (fs : Fs) (dirpath : Path) (c : Catalog) (now : Nat)
    (c' : Catalog) (h : reIndex fs dirpath c now = .ok c') :
    c'.info.channels = c'.channels.countP (·.active) ∧
    c'.info.videos = c'.videos.countP (·.active) ∧
    c'.info.lastupdate = now := by
  simp only [reIndex] at h
  split at h
  · cases h
  · split at h
    · cases h
    · injection h with h
      subst h
      unfold updateInfo
      exact ⟨rfl, rfl, rfl⟩

/-- An empty catalog registering the recursive root of `fsRec`. -/
def catNoRegRec : Catalog := ⟨⟨0, 0, 0, 4⟩, [⟨["root"], true⟩], [], [], 1⟩

/-- The catalog committed by a pass over `fsRec` from `catNoRegRec`. -/
def catRecAfter : Catalog :=
  ⟨⟨42, 2, 0, 4⟩, [⟨["root"], true⟩],
    [⟨1, ["root", "s1"], ["w", "root", "s1"], sampleCD, true⟩,
      ⟨2, ["root", "s2"], ["w", "root", "s2"], sampleCD, true⟩], [], 3⟩

/-- Witness for C8: a pass over `fsRec` (two good sources) commits, and its
status row matches the active-row counts and the pass timestamp. -/
theorem reIndex_summary_witness :
    reIndex fsRec ["w"] catNoRegRec 42 = .ok catRecAfter ∧
    (catRecAfter.info.channels = catRecAfter.channels.countP (·.active) ∧
      catRecAfter.info.videos = catRecAfter.videos.countP (·.active) ∧
      catRecAfter.info.lastupdate = 42) := by
  have hrun : reIndex fsRec ["w"] catNoRegRec 42 = .ok catRecAfter := by rfl
  exact ⟨hrun, reIndex_summary fsRec ["w"] catNoRegRec 42 catRecAfter hrun⟩

/-! ## Per-source error isolation (C2) -/

/-- A catalog with one registered source and one prior, inactive channel
row for it. -/
def catC2 : Catalog :=
  ⟨⟨0, 0, 0, 4⟩, [⟨["s"], false⟩],
    [⟨1, ["s"], ["w", "s"], sampleCD, false⟩], [], 2⟩

/-- A source whose channel row reads fine but whose video table read fails
(the caught `sqlite3.Error` of the videos `SELECT`). -/
def adbBadVids : ArchiveDB := ⟨true, some 5, some sampleCD, none⟩

/-- The filesystem holding that source. -/
def fsC2 : Fs := ⟨[["w"], ["w", "s"]], [(["w", "s"], adbBadVids)]⟩

/-- C2 counterexample: a failed video read is caught and the loop continues,
but the source's prior row does **not** stay inactive — the channel upsert
already ran before the failure, so the prior channel row comes out with
`active = true`. -/
theorem processSource_video_read_cex :
    catC2.channels.map ChannelRow.active = [false] ∧
    processSource fsC2 ["w"] catC2 ["s"] =
      .ok ⟨⟨0, 0, 0, 4⟩, [⟨["s"], false⟩],
        [⟨1, ["s"], ["w", "s"], sampleCD, true⟩], [], 2⟩ :=
  ⟨rfl, rfl⟩

/-- C2 as amended: every recoverable per-source error — unreadable source
store, declared version below the minimum, failed channel read, failed
channel write, failed video read — is caught inside the loop body, which
returns normally (`.ok`, never an exception) so the loop proceeds to the
next candidate; an error striking before the channel write leaves the
catalog (and thus that source's prior, deactivated rows) unchanged, while a
video-read failure keeps exactly the state already written, in which the
source's channel row is active. -/
theorem processSource_recoverable_isolated (fs : Fs) (dirpath : Path)
    (c : Catalog) (x : Path) (adb : ArchiveDB)
    (hadb : fs.archiveAt (dirpath ++ x) = some adb) :
    (adb.connectOk = false → processSource fs dirpath c x = .ok c) ∧
    (adb.version.getD 1 < archiveDBVersion →
      processSource fs dirpath c x = .ok c) ∧
    (adb.channel = none → processSource fs dirpath c x = .ok c) ∧
    (∀ d, adb.channel = some d →
      writeChannel c x (dirpath ++ x) d = .skipped →
      processSource fs dirpath c x = .ok c) ∧
    (∀ d c' cid, adb.channel = some d → adb.videoRows = none →
      adb.connectOk = true → archiveDBVersion ≤ adb.version.getD 1 →
      writeChannel c x (dirpath ++ x) d = .written c' cid →
      processSource fs dirpath c x = .ok c') ∧
    (∀ xs c', processSource fs dirpath c x = .ok c' →
      processAll fs dirpath (x :: xs) c = processAll fs dirpath xs c') := by
  refine ⟨?_, ?_, ?_, ?_, ?_, ?_⟩
  · intro h1
    unfold processSource
    simp only [hadb, h1]
    rfl
  · intro h2
    unfold processSource
    simp only [hadb]
    by_cases hc : adb.connectOk = false
    · simp [hc]
    · simp [hc, h2]
  · intro h3
    unfold processSource
    simp only [hadb, h3]
    by_cases hc : adb.connectOk = false
    · simp [hc]
    · by_cases hv : adb.version.getD 1 < archiveDBVersion
      · simp [hc, hv]
      · simp [hc, hv]
  · intro d h4 hskip
    unfold processSource
    simp only [hadb, h4]
    by_cases hc : adb.connectOk = false
    · simp [hc]
    · by_cases hv : adb.version.getD 1 < archiveDBVersion
      · simp [hc, hv]
      · simp [hc, hv, hskip]
  · intro d c' cid h5 hvr hc hv hw
    unfold processSource
    simp only [hadb, h5, hc, hvr, hw]
    simp [Nat.not_lt.mpr hv]
  · intro xs c' h
    simp only [processAll, h]

/-- The state `processSource` reaches on the C2 counterexample, with the
channel row activated. -/
def catC2After : Catalog :=
  ⟨⟨0, 0, 0, 4⟩, [⟨["s"], false⟩],
    [⟨1, ["s"], ["w", "s"], sampleCD, true⟩], [], 2⟩

/-- Witness for the amended C2: the video-read-failure conjunct applied on
the concrete source, continuing with the channel-written state; and the
loop-continuation conjunct applied to it. -/
theorem processSource_recoverable_isolated_witness :
    processSource fsC2 ["w"] catC2 ["s"] = .ok catC2After ∧
    processAll fsC2 ["w"] [["s"]] catC2 = processAll fsC2 ["w"] [] catC2After := by
  have H := processSource_recoverable_isolated fsC2 ["w"] catC2 ["s"] adbBadVids rfl
  have h1 : processSource fsC2 ["w"] catC2 ["s"] = .ok catC2After :=
    H.2.2.2.2.1 sampleCD catC2After 1 rfl rfl rfl (by norm_num [adbBadVids, archiveDBVersion]) (by rfl)
  exact ⟨h1, H.2.2.2.2.2 [] catC2After h1⟩

/-! ## Channel upsert (C1) -/

theorem map_relpath_updateChannelRows (rows : List ChannelRow) (rp ap : Path)
    (d : ChannelData) :
    (updateChannelRows rows rp ap d).map ChannelRow.relpath =
      rows.map ChannelRow.relpath := by
  unfold updateChannelRows
  rw [List.map_map]
  apply List.map_congr_left
  intro r _
  by_cases h : r.relpath = rp <;> simp [h]

theorem countP_relpath_updateChannelRows (rows : List ChannelRow)
    (rp ap : Path) (d : ChannelData) (q : Path) :
    (updateChannelRows rows rp ap d).countP (fun r => r.relpath == q) =
      rows.countP (fun r => r.relpath == q) := by
  unfold updateChannelRows
  rw [List.countP_map]
  apply List.countP_congr
  intro r _
  by_cases h : r.relpath = rp <;> simp [h]

theorem find?_updateChannelRows (rows : List ChannelRow) (rp ap : Path)
    (d : ChannelData) :
    (updateChannelRows rows rp ap d).find? (fun q => q.relpath == rp) =
      (rows.find? (fun q => q.relpath == rp)).map
        (fun r => { r with abspath := ap, data := d, active := true }) := by
  induction rows with
  | nil => rfl
  | cons r t ih =>
    show (updateChannelRows (r :: t) rp ap d).find? _ = _
    unfold updateChannelRows
    rw [List.map_cons]
    by_cases h : r.relpath = rp
    · rw [if_pos h]
      rw [List.find?_cons_of_pos _ (by simp [h]),
        List.find?_cons_of_pos _ (by simp [h])]
      rfl
    · rw [if_neg h]
      rw [List.find?_cons_of_neg _ (by simp [h]),
        List.find?_cons_of_neg _ (by simp [h])]
      exact ih

theorem countP_relpath_le_one {rows : List ChannelRow} {rp : Path}
    (hnd : (rows.map ChannelRow.relpath).Nodup) :
    rows.countP (fun r => r.relpath == rp) ≤ 1 := by
  induction rows with
  | nil => simp
  | cons r t ih =>
    simp only [List.map_cons, List.nodup_cons] at hnd
    obtain ⟨hnot, hnd'⟩ := hnd
    by_cases h : r.relpath = rp
    · rw [List.countP_cons_of_pos _ _ (by simp [h])]
      have hz : t.countP (fun q => q.relpath == rp) = 0 := by
        rw [List.countP_eq_zero]
        intro q hq
        simp only [beq_iff_eq]
        intro hqr
        exact hnot (by rw [h, ← hqr]; exact List.mem_map_of_mem _ hq)
      omega
    · rw [List.countP_cons_of_neg _ _ (by simp [h])]
      exact ih hnd'

theorem find?_append_left_none {α : Type} {l₁ l₂ : List α} {p : α → Bool}
    (h : l₁.find? p = none) : (l₁ ++ l₂).find? p = l₂.find? p := by
  induction l₁ with
  | nil => rfl
  | cons a t ih =>
    rcases hp : p a with _ | _
    · rw [List.find?_cons_of_neg _ (by simp [hp])] at h
      rw [List.cons_append, List.find?_cons_of_neg _ (by simp [hp])]
      exact ih h
    · rw [List.find?_cons_of_pos _ hp] at h
      cases h

/-- The channel upsert as §4.4 of the specification words it
(`upsertChannel(snapshot)`): if a row with the natural key `relpath` exists,
update all its fields, set `active = true` and keep its surrogate ID; else
insert a fresh row with the next surrogate ID and `active = true`.  Either
way the surrogate channel ID is returned alongside the new catalog. -/
def upsertChannelSpec (c : Catalog) (rp ap : Path) (d : ChannelData) :
    Catalog × Nat :=
  match c.channels.find? (fun r => r.relpath == rp) with
  | some r =>
    ({ c with channels := c.channels.map (fun q =>
        if q.relpath = rp then { q with abspath := ap, data := d, active := true }
        else q) },
      r.id)
  | none =>
    ({ c with
        channels := c.channels ++ [⟨c.nextChannelId, rp, ap, d, true⟩],
        nextChannelId := c.nextChannelId + 1 },
      c.nextChannelId)

/-- C1 counterexample: a reachable catalog state (a stale row saved under a
different working directory holds the absolute path the snapshot now maps
to) on which the channel upsert block neither updates nor inserts nor
returns a surrogate ID — the `INSERT` hits the `abspath` uniqueness
constraint, the `UPDATE ... WHERE relpath` matches no row, and the
`SELECT id` read-back then dereferences no row (uncaught `TypeError`). -/
theorem writeChannel_abspath_collision_cex :
    writeChannel ⟨⟨0, 0, 0, 4⟩, [], [⟨1, ["a"], ["p"], sampleCD, false⟩], [], 2⟩
      ["b"] ["p"] sampleCD = .crash := by
  rfl

theorem writeChannel_spec_aux (c : Catalog) (rp ap : Path) (d : ChannelData)
    (hap : ∀ r ∈ c.channels, r.abspath = ap → r.relpath = rp)
    (hnd : (c.channels.map ChannelRow.relpath).Nodup) :
    writeChannel c rp ap d =
      .written (upsertChannelSpec c rp ap d).1 (upsertChannelSpec c rp ap d).2 ∧
    (upsertChannelSpec c rp ap d).1.channels.countP (fun r => r.relpath == rp) = 1 ∧
    ((upsertChannelSpec c rp ap d).1.channels.map ChannelRow.relpath).Nodup ∧
    selectChannelId (upsertChannelSpec c rp ap d).1 rp =
      some (upsertChannelSpec c rp ap d).2 := by
  rcases hfind : c.channels.find? (fun r => r.relpath == rp) with _ | r
  · -- no row with the natural key: the INSERT succeeds
    have hno : ∀ q ∈ c.channels, ¬ q.relpath = rp := by
      intro q hq
      have := List.find?_eq_none.mp hfind q hq
      simpa using this
    have hins : tryInsertChannel c rp ap d =
        some { c with
          channels := c.channels ++ [⟨c.nextChannelId, rp, ap, d, true⟩],
          nextChannelId := c.nextChannelId + 1 } := by
      unfold tryInsertChannel
      rw [if_neg]
      rintro ⟨q, hq, hor⟩
      rcases hor with hq1 | hq2
      · exact hno q hq hq1
      · exact hno q hq (hap q hq hq2)
    have hsel : selectChannelId
        { c with
          channels := c.channels ++ [⟨c.nextChannelId, rp, ap, d, true⟩],
          nextChannelId := c.nextChannelId + 1 } rp = some c.nextChannelId := by
      unfold selectChannelId
      show ((c.channels ++ [(⟨c.nextChannelId, rp, ap, d, true⟩ : ChannelRow)]).find?
        (fun r => r.relpath == rp)).map ChannelRow.id = some c.nextChannelId
      rw [find?_append_left_none hfind]
      rw [List.find?_cons_of_pos _ (by simp)]
      rfl
    unfold writeChannel
    simp only [hins, hsel]
    unfold upsertChannelSpec
    simp only [hfind]
    refine ⟨by trivial, ?_, ?_, ?_⟩
    · show (c.channels ++ [(⟨c.nextChannelId, rp, ap, d, true⟩ : ChannelRow)]).countP
        (fun r => r.relpath == rp) = 1
      rw [List.countP_append]
      rw [List.countP_eq_zero.mpr (by intro q hq; simpa using hno q hq)]
      simp
    · show ((c.channels ++ [(⟨c.nextChannelId, rp, ap, d, true⟩ : ChannelRow)]).map
        ChannelRow.relpath).Nodup
      rw [List.map_append, List.nodup_append]
      refine ⟨hnd, by simp, ?_⟩
      intro q hq hq'
      simp only [List.map_cons, List.map_nil, List.mem_singleton] at hq'
      obtain ⟨w, hw, rfl⟩ := List.mem_map.mp hq
      exact hno w hw hq'
    · exact hsel
  · -- a row with the natural key exists: INSERT fails, UPDATE succeeds
    have hmem : r ∈ c.channels := List.mem_of_find?_eq_some hfind
    have hrrp : r.relpath = rp := by
      have := List.find?_some hfind
      simpa using this
    have hins : tryInsertChannel c rp ap d = none := by
      unfold tryInsertChannel
      rw [if_pos ⟨r, hmem, Or.inl hrrp⟩]
    have hcount1 : c.channels.countP (fun q => q.relpath == rp) = 1 := by
      have hle := @countP_relpath_le_one _ rp hnd
      have hpos : 0 < c.channels.countP (fun q => q.relpath == rp) :=
        List.countP_pos_iff.mpr ⟨r, hmem, by simp [hrrp]⟩
      omega
    have hupd : tryUpdateChannel c rp ap d =
        some { c with channels := updateChannelRows c.channels rp ap d } := by
      unfold tryUpdateChannel
      rw [if_neg]
      rintro ⟨-, hbad⟩
      rcases hbad with ⟨q, hq, hne, hqap⟩ | htwo
      · exact hne (hap q hq hqap)
      · rw [← List.countP_eq_length_filter, hcount1] at htwo
        omega
    have hsel : selectChannelId
        { c with channels := updateChannelRows c.channels rp ap d } rp =
        some r.id := by
      unfold selectChannelId
      show ((updateChannelRows c.channels rp ap d).find?
        (fun q => q.relpath == rp)).map ChannelRow.id = some r.id
      rw [find?_updateChannelRows, hfind]
      rfl
    unfold writeChannel
    simp only [hins, hupd, hsel]
    unfold upsertChannelSpec
    simp only [hfind]
    refine ⟨by trivial, ?_, ?_, ?_⟩
    · show (updateChannelRows c.channels rp ap d).countP
        (fun q => q.relpath == rp) = 1
      rw [countP_relpath_updateChannelRows]
      exact hcount1
    · show ((updateChannelRows c.channels rp ap d).map ChannelRow.relpath).Nodup
      rw [map_relpath_updateChannelRows]
      exact hnd
    · exact hsel

/-- C1 as amended: provided no other channel row already holds the
snapshot's absolute path (true whenever the stored absolute paths agree
with the current working directory) and the rows satisfy the natural-key
uniqueness invariant, the insert-except-update block is exactly the
specification's upsert-by-natural-key: it updates the existing `relpath`
row in place (all fields, `active = true`, surrogate ID preserved) or
inserts a fresh row with a fresh surrogate ID, returns the surrogate ID
either way, and afterwards exactly one row carries the snapshot's natural
key, the uniqueness invariant surviving — so a second upsert of the same
relpath updates rather than duplicates. -/
theorem writeChannel_upsert_spec (c : Catalog) (rp ap : Path) (d : ChannelData)
    (hap : ∀ r ∈ c.channels, r.abspath = ap → r.relpath = rp)
    (hnd : (c.channels.map ChannelRow.relpath).Nodup) :
    writeChannel c rp ap d =
      .written (upsertChannelSpec c rp ap d).1 (upsertChannelSpec c rp ap d).2 ∧
    (upsertChannelSpec c rp ap d).1.channels.countP (fun r => r.relpath == rp) = 1 ∧
    ((upsertChannelSpec c rp ap d).1.channels.map ChannelRow.relpath).Nodup := by
  have H := writeChannel_spec_aux c rp ap d hap hnd
  exact ⟨H.1, H.2.1, H.2.2.1⟩

/-- A two-row catalog for the C1 witness. -/
def catC1 : Catalog :=
  ⟨⟨0, 0, 0, 4⟩, [],
    [⟨1, ["r1"], ["p1"], sampleCD, false⟩, ⟨2, ["r2"], ["p2"], sampleCD, false⟩],
    [], 3⟩

/-- Witness for the amended C1: upserting a snapshot whose relpath matches
the second row updates it in place (ID 2 preserved, one row with the key),
and upserting a fresh relpath inserts with the fresh surrogate ID 3. -/
theorem writeChannel_upsert_spec_witness :
    writeChannel catC1 ["r2"] ["q2"] sampleCD =
      .written (upsertChannelSpec catC1 ["r2"] ["q2"] sampleCD).1
        (upsertChannelSpec catC1 ["r2"] ["q2"] sampleCD).2 ∧
    (upsertChannelSpec catC1 ["r2"] ["q2"] sampleCD).2 = 2 ∧
    writeChannel catC1 ["r3"] ["q3"] sampleCD =
      .written (upsertChannelSpec catC1 ["r3"] ["q3"] sampleCD).1
        (upsertChannelSpec catC1 ["r3"] ["q3"] sampleCD).2 ∧
    (upsertChannelSpec catC1 ["r3"] ["q3"] sampleCD).2 = 3 ∧
    (upsertChannelSpec catC1 ["r2"] ["q2"] sampleCD).1.channels.countP
      (fun r => r.relpath == ["r2"]) = 1 := by
  have H2 := writeChannel_upsert_spec catC1 ["r2"] ["q2"] sampleCD
    (by decide) (by decide)
  have H3 := writeChannel_upsert_spec catC1 ["r3"] ["q3"] sampleCD
    (by decide) (by decide)
  exact ⟨H2.1, rfl, H3.1, rfl, H2.2.1⟩

/-! ## Idempotence machinery (C9)

The two passes of the idempotence claim read the same sources, so the
per-source data is abstracted into the functions `srcChan` / `srcVids` of
the candidate alone, and the video writes of a pass into the canonical
write stream `vidWrites`, whose last write per external ID determines the
committed video row. -/

/-- The last element of `l` satisfying `p`, as the per-source loop's
repeated overwrites leave it. -/
def lastBy {α : Type} (p : α → Bool) (l : List α) : Option α :=
  l.foldl (fun acc v => if p v then some v else acc) none

theorem foldl_lastBy_init {α : Type} (p : α → Bool) (l : List α)
    (a : Option α) :
    l.foldl (fun acc v => if p v then some v else acc) a =
      match lastBy p l with
      | some u => some u
      | none => a := by
  induction l generalizing a with
  | nil => rfl
  | cons v t ih =>
    show t.foldl _ (if p v then some v else a) = _
    rw [ih]
    show _ = match t.foldl _ (if p v then some v else none) with
      | some u => some u
      | none => a
    rw [ih (if p v then some v else none)]
    rcases lastBy p t with _ | u
    · by_cases h : p v = true <;> simp [h]
    · rfl

theorem lastBy_append {α : Type} (p : α → Bool) (l₁ l₂ : List α) :
    lastBy p (l₁ ++ l₂) =
      match lastBy p l₂ with
      | some u => some u
      | none => lastBy p l₁ := by
  unfold lastBy
  rw [List.foldl_append]
  exact foldl_lastBy_init p l₂ _

theorem lastBy_cons {α : Type} (p : α → Bool) (v : α) (t : List α) :
    lastBy p (v :: t) =
      match lastBy p t with
      | some u => some u
      | none => if p v then some v else none := by
  show t.foldl (fun acc w => if p w then some w else acc)
    (if p v then some v else none) = _
  exact foldl_lastBy_init p t _

theorem lastBy_map {α β : Type} (p : β → Bool) (f : α → β) (l : List α) :
    lastBy p (l.map f) = (lastBy (fun a => p (f a)) l).map f := by
  induction l with
  | nil => rfl
  | cons v t ih =>
    rw [List.map_cons, lastBy_cons, lastBy_cons, ih]
    rcases lastBy (fun a => p (f a)) t with _ | u
    · by_cases h : p (f v) = true <;> simp [h]
    · rfl

theorem lastBy_mem {α : Type} {p : α → Bool} {l : List α} {a : α}
    (h : lastBy p l = some a) : a ∈ l ∧ p a = true := by
  induction l generalizing a with
  | nil => cases h
  | cons v t ih =>
    rw [lastBy_cons] at h
    rcases ht : lastBy p t with _ | u
    · rw [ht] at h
      rcases hv : p v with _ | _
      · rw [hv] at h
        cases h
      · rw [hv] at h
        simp only [if_true, Option.some.injEq] at h
        subst h
        exact ⟨by simp, hv⟩
    · rw [ht] at h
      injection h with h
      subst h
      obtain ⟨h1, h2⟩ := ih ht
      exact ⟨by simp [h1], h2⟩

theorem lastBy_eq_none {α : Type} {p : α → Bool} {l : List α} :
    lastBy p l = none ↔ ∀ a ∈ l, ¬ p a := by
  induction l with
  | nil => simp [lastBy]
  | cons v t ih =>
    rw [lastBy_cons]
    rcases ht : lastBy p t with _ | u
    · rcases hv : p v with _ | _
      · simp only [hv, if_false]
        constructor
        · intro _ a ha
          rcases List.mem_cons.mp ha with rfl | h1
          · simp [hv]
          · exact ih.mp ht a h1
        · intro _
          rfl
      · simp only [hv, if_true]
        constructor
        · intro h
          cases h
        · intro h
          exact absurd hv (by simpa using h v (by simp))
    · constructor
      · intro h
        cases h
      · intro h
        obtain ⟨h1, h2⟩ := lastBy_mem ht
        exact absurd h2 (by simpa using h u (by simp [h1]))

/-- The channel snapshot the per-source loop can extract from candidate `x`:
`none` when the loop skips the source before the channel write (no archive,
connect failure, version gate, channel read failure). -/
def srcChan (fs : Fs) (dirpath : Path) (x : Path) : Option ChannelData :=
  match fs.archiveAt (dirpath ++ x) with
  | none => none
  | some adb =>
    if adb.connectOk = false then none
    else if adb.version.getD 1 < archiveDBVersion then none
    else adb.channel

/-- The video rows the per-source loop can extract from candidate `x`, read
only after the channel part succeeded: `none` when the source is skipped or
its video read fails. -/
def srcVids (fs : Fs) (dirpath : Path) (x : Path) : Option (List SrcVideo) :=
  match fs.archiveAt (dirpath ++ x) with
  | none => none
  | some adb =>
    if adb.connectOk = false then none
    else if adb.version.getD 1 < archiveDBVersion then none
    else
      match adb.channel with
      | none => none
      | some _ => adb.videoRows

theorem srcVids_none_of_chan_none {fs : Fs} {dirpath : Path} {x : Path}
    (h : srcChan fs dirpath x = none) : srcVids fs dirpath x = none := by
  rcases ha : fs.archiveAt (dirpath ++ x) with _ | adb
  · simp [srcVids, ha]
  · rcases hc : adb.connectOk with _ | _
    · simp [srcVids, ha, hc]
    · by_cases hv : adb.version.getD 1 < archiveDBVersion
      · simp [srcVids, ha, hc, hv]
      · have hch : adb.channel = none := by
          simpa [srcChan, ha, hc, hv] using h
        simp [srcVids, ha, hc, hv, hch]

/-- The body of the per-source loop in terms of the extracted data alone. -/
theorem processSource_eq (fs : Fs) (dirpath : Path) (c : Catalog) (x : Path) :
    processSource fs dirpath c x =
      match srcChan fs dirpath x with
      | none => .ok c
      | some d =>
        match writeChannel c x (dirpath ++ x) d with
        | .skipped => .ok c
        | .crash => .error .crash
        | .written c' cid =>
          match srcVids fs dirpath x with
          | none => .ok c'
          | some vs =>
            .ok (vs.foldl (fun cc v => upsertVideo cc cid (dirpath ++ x) v) c') := by
  rcases ha : fs.archiveAt (dirpath ++ x) with _ | adb
  · simp [processSource, srcChan, ha]
  · rcases hc : adb.connectOk with _ | _
    · simp [processSource, srcChan, ha, hc]
    · by_cases hv : adb.version.getD 1 < archiveDBVersion
      · simp [processSource, srcChan, ha, hc, hv]
      · rcases hch : adb.channel with _ | d
        · simp [processSource, srcChan, ha, hc, hv, hch]
        · cases hw : writeChannel c x (dirpath ++ x) d with
          | written c2 cid =>
            rcases hvr : adb.videoRows with _ | vs <;>
              simp [processSource, srcChan, srcVids, ha, hc, hv, hch, hw, hvr]
          | skipped =>
            simp [processSource, srcChan, srcVids, ha, hc, hv, hch, hw]
          | crash =>
            simp [processSource, srcChan, srcVids, ha, hc, hv, hch, hw]

/-- The canonical video write stream of a pass over candidates `P`: each
non-skipped source contributes its video rows, tagged with the candidate. -/
def vidWrites (fs : Fs) (dirpath : Path) : List Path → List (Path × SrcVideo)
  | [] => []
  | x :: xs =>
    (match srcVids fs dirpath x with
      | some vs => vs.map (fun v => (x, v))
      | none => []) ++ vidWrites fs dirpath xs

/-- The last write the pass issues against external video ID `id`: the
value the committed row must carry. -/
def lastVidWrite (fs : Fs) (dirpath : Path) (P : List Path) (id : String) :
    Option (Path × SrcVideo) :=
  lastBy (fun xv => xv.2.youtubeID == id) (vidWrites fs dirpath P)

theorem vidWrites_append (fs : Fs) (dirpath : Path) (P Q : List Path) :
    vidWrites fs dirpath (P ++ Q) =
      vidWrites fs dirpath P ++ vidWrites fs dirpath Q := by
  induction P with
  | nil => rfl
  | cons x xs ih =>
    show (match srcVids fs dirpath x with
      | some vs => vs.map (fun v => (x, v))
      | none => []) ++ vidWrites fs dirpath (xs ++ Q) = _
    rw [ih]
    rw [← List.append_assoc]
    rfl

theorem vidWrites_singleton (fs : Fs) (dirpath : Path) (x : Path) :
    vidWrites fs dirpath [x] =
      match srcVids fs dirpath x with
      | some vs => vs.map (fun v => (x, v))
      | none => [] := by
  show (match srcVids fs dirpath x with
    | some vs => vs.map (fun v => (x, v))
    | none => []) ++ [] = _
  rw [List.append_nil]

theorem lastVidWrite_snoc (fs : Fs) (dirpath : Path) (P : List Path)
    (x : Path) (id : String) :
    lastVidWrite fs dirpath (P ++ [x]) id =
      match srcVids fs dirpath x with
      | some vs =>
        (match lastBy (fun v => v.youtubeID == id) vs with
          | some v => some (x, v)
          | none => lastVidWrite fs dirpath P id)
      | none => lastVidWrite fs dirpath P id := by
  unfold lastVidWrite
  rw [vidWrites_append, lastBy_append, vidWrites_singleton]
  rcases hv : srcVids fs dirpath x with _ | vs
  · simp only [hv]
    rfl
  · simp only [hv, lastBy_map]
    rcases hlo : lastBy (fun v => v.youtubeID == id) vs with _ | v <;>
      simp only [hlo] <;> rfl

theorem mem_vidWrites_of {fs : Fs} {dirpath : Path} :
    ∀ {L : List Path} {x : Path} {vs : List SrcVideo} {v : SrcVideo},
      x ∈ L → srcVids fs dirpath x = some vs → v ∈ vs →
      (x, v) ∈ vidWrites fs dirpath L := by
  intro L
  induction L with
  | nil =>
    intro x vs v hx _ _
    cases hx
  | cons y ys ih =>
    intro x vs v hx hvs hv
    show (x, v) ∈ (match srcVids fs dirpath y with
      | some vs => vs.map (fun w => (y, w))
      | none => []) ++ vidWrites fs dirpath ys
    rw [List.mem_append]
    rcases List.mem_cons.mp hx with rfl | hx'
    · left
      rw [hvs]
      exact List.mem_map_of_mem _ hv
    · right
      exact ih hx' hvs hv

theorem lastVidWrite_mem_of_write {fs : Fs} {dirpath : Path} {L : List Path}
    {x : Path} {vs : List SrcVideo} {v : SrcVideo}
    (hx : x ∈ L) (hvs : srcVids fs dirpath x = some vs) (hv : v ∈ vs) :
    lastVidWrite fs dirpath L v.youtubeID ≠ none := by
  intro hnone
  have h2 := lastBy_eq_none.mp hnone (x, v) (mem_vidWrites_of hx hvs hv)
  simp at h2

/-- The video row a write with channel `cid`, source directory `ap` and
extracted row `v` commits. -/
def vidRowOf (cid : Nat) (ap : Path) (v : SrcVideo) : VideoRow :=
  ⟨v.youtubeID, cid, ap ++ [v.filename], v.data, true⟩

theorem upsertVideo_videos (c : Catalog) (cid : Nat) (ap : Path)
    (v : SrcVideo) :
    (upsertVideo c cid ap v).videos =
      if ∃ w ∈ c.videos, w.id = v.youtubeID then
        c.videos.map (fun w =>
          if w.id = v.youtubeID then
            { w with channelID := cid, filepath := ap ++ [v.filename],
                     data := v.data, active := true }
          else w)
      else c.videos ++ [vidRowOf cid ap v] := by
  by_cases h : ∃ w ∈ c.videos, w.id = v.youtubeID <;>
    simp [upsertVideo, vidRowOf, h]

theorem upsertVideo_rest (c : Catalog) (cid : Nat) (ap : Path)
    (v : SrcVideo) :
    (upsertVideo c cid ap v).channels = c.channels ∧
    (upsertVideo c cid ap v).archives = c.archives ∧
    (upsertVideo c cid ap v).info = c.info ∧
    (upsertVideo c cid ap v).nextChannelId = c.nextChannelId := by
  by_cases h : ∃ w ∈ c.videos, w.id = v.youtubeID <;>
    simp [upsertVideo, h]

theorem upsertVideo_mem_cases {c : Catalog} {cid : Nat} {ap : Path}
    {v : SrcVideo} {w' : VideoRow}
    (h : w' ∈ (upsertVideo c cid ap v).videos) :
    (w'.id = v.youtubeID ∧ w' = vidRowOf cid ap v) ∨
    (w'.id ≠ v.youtubeID ∧ w' ∈ c.videos) := by
  rw [upsertVideo_videos] at h
  split at h
  · rename_i hex
    obtain ⟨w, hw, rfl⟩ := List.mem_map.mp h
    by_cases hid : w.id = v.youtubeID
    · left
      rw [if_pos hid]
      exact ⟨hid, by cases w; simp [vidRowOf]; exact hid⟩
    · right
      rw [if_neg hid]
      exact ⟨hid, hw⟩
  · rename_i hex
    rcases List.mem_append.mp h with h1 | h1
    · right
      refine ⟨?_, h1⟩
      intro hid
      exact hex ⟨w', h1, hid⟩
    · left
      rw [List.mem_singleton] at h1
      subst h1
      exact ⟨rfl, rfl⟩

theorem upsertVideo_mem_image {c : Catalog} {cid : Nat} {ap : Path}
    {v : SrcVideo} {w : VideoRow} (hw : w ∈ c.videos) :
    ∃ w' ∈ (upsertVideo c cid ap v).videos,
      w'.id = w.id ∧ (w.id ≠ v.youtubeID → w' = w) := by
  rw [upsertVideo_videos]
  split
  · refine ⟨if w.id = v.youtubeID then
      { w with channelID := cid, filepath := ap ++ [v.filename],
               data := v.data, active := true } else w,
      List.mem_map_of_mem _ hw, ?_, ?_⟩
    · by_cases hid : w.id = v.youtubeID <;> simp [hid]
    · intro hid
      rw [if_neg hid]
  · exact ⟨w, by simp [hw], rfl, fun _ => rfl⟩

theorem upsertVideo_presence (c : Catalog) (cid : Nat) (ap : Path)
    (v : SrcVideo) :
    ∃ w' ∈ (upsertVideo c cid ap v).videos, w'.id = v.youtubeID := by
  rw [upsertVideo_videos]
  split
  · rename_i hex
    obtain ⟨w, hw, hid⟩ := hex
    refine ⟨if w.id = v.youtubeID then
      { w with channelID := cid, filepath := ap ++ [v.filename],
               data := v.data, active := true } else w,
      List.mem_map_of_mem _ hw, ?_⟩
    rw [if_pos hid]
    exact hid
  · exact ⟨vidRowOf cid ap v, by simp, rfl⟩

theorem upsertVideo_nodup {c : Catalog} {cid : Nat} {ap : Path}
    {v : SrcVideo} (hnd : (c.videos.map VideoRow.id).Nodup) :
    ((upsertVideo c cid ap v).videos.map VideoRow.id).Nodup := by
  rw [upsertVideo_videos]
  split
  · have heq : ((c.videos.map (fun w => if w.id = v.youtubeID then
        { w with channelID := cid, filepath := ap ++ [v.filename],
                 data := v.data, active := true } else w)).map VideoRow.id) =
        c.videos.map VideoRow.id := by
      rw [List.map_map]
      apply List.map_congr_left
      intro w _
      by_cases hid : w.id = v.youtubeID <;> simp [Function.comp, hid]
    rw [heq]
    exact hnd
  · rename_i hex
    rw [List.map_append, List.nodup_append]
    refine ⟨hnd, by simp, ?_⟩
    intro q hq hq'
    simp only [List.map_cons, List.map_nil, List.mem_singleton] at hq'
    obtain ⟨w, hw, rfl⟩ := List.mem_map.mp hq
    exact hex ⟨w, hw, by simpa [vidRowOf] using hq'⟩

/-- Folding one source's video rows into the catalog (channel `cid`, source
directory `ap`): the channels and bookkeeping are untouched, id-uniqueness
survives, previously present IDs and every chunk ID are present afterwards,
and each row either carries the chunk's last write against its ID or is an
untouched original row. -/
theorem vchunk_pointwise (cid : Nat) (ap : Path) :
    ∀ (vs : List SrcVideo) (c : Catalog),
      (c.videos.map VideoRow.id).Nodup →
      ((vs.foldl (fun cc v => upsertVideo cc cid ap v) c).channels = c.channels ∧
        (vs.foldl (fun cc v => upsertVideo cc cid ap v) c).archives = c.archives ∧
        (vs.foldl (fun cc v => upsertVideo cc cid ap v) c).info = c.info ∧
        (vs.foldl (fun cc v => upsertVideo cc cid ap v) c).nextChannelId =
          c.nextChannelId) ∧
      ((vs.foldl (fun cc v => upsertVideo cc cid ap v) c).videos.map
        VideoRow.id).Nodup ∧
      (∀ id : String, (∃ w ∈ c.videos, w.id = id) →
        ∃ w' ∈ (vs.foldl (fun cc v => upsertVideo cc cid ap v) c).videos,
          w'.id = id) ∧
      (∀ v ∈ vs,
        ∃ w' ∈ (vs.foldl (fun cc v => upsertVideo cc cid ap v) c).videos,
          w'.id = v.youtubeID) ∧
      (∀ w' ∈ (vs.foldl (fun cc v => upsertVideo cc cid ap v) c).videos,
        match lastBy (fun v => v.youtubeID == w'.id) vs with
        | some v => w' = vidRowOf cid ap v
        | none => w' ∈ c.videos) := by
  intro vs
  induction vs with
  | nil =>
    intro c hnd
    refine ⟨⟨rfl, rfl, rfl, rfl⟩, hnd, ?_, ?_, ?_⟩
    · intro id h
      exact h
    · intro v hv
      cases hv
    · intro w' hw'
      exact hw'
  | cons v rest ih =>
    intro c hnd
    have hnd1 := @upsertVideo_nodup _ cid ap v hnd
    have IH := ih (upsertVideo c cid ap v) hnd1
    have hfold : (v :: rest).foldl (fun cc u => upsertVideo cc cid ap u) c =
        rest.foldl (fun cc u => upsertVideo cc cid ap u) (upsertVideo c cid ap v) :=
      rfl
    rw [hfold]
    have hrest := upsertVideo_rest c cid ap v
    refine ⟨⟨?_, ?_, ?_, ?_⟩, IH.2.1, ?_, ?_, ?_⟩
    · rw [IH.1.1, hrest.1]
    · rw [IH.1.2.1, hrest.2.1]
    · rw [IH.1.2.2.1, hrest.2.2.1]
    · rw [IH.1.2.2.2, hrest.2.2.2]
    · intro id h
      obtain ⟨w, hw, hid⟩ := h
      obtain ⟨w1, hw1, hid1, -⟩ := @upsertVideo_mem_image _ cid ap v _ hw
      exact IH.2.2.1 id ⟨w1, hw1, by rw [hid1, hid]⟩
    · intro u hu
      rcases List.mem_cons.mp hu with rfl | hu'
      · obtain ⟨w1, hw1, hid1⟩ := upsertVideo_presence c cid ap u
        exact IH.2.2.1 u.youtubeID ⟨w1, hw1, hid1⟩
      · exact IH.2.2.2.1 u hu'
    · intro w' hw'
      have hchar := IH.2.2.2.2 w' hw'
      rw [lastBy_cons]
      rcases hrb : lastBy (fun u => u.youtubeID == w'.id) rest with _ | u
      · rw [hrb] at hchar
        rw [hrb]
        have hmem1 : w' ∈ (upsertVideo c cid ap v).videos := hchar
        rcases upsertVideo_mem_cases hmem1 with ⟨hid, hval⟩ | ⟨hid, hmem⟩
        · rw [if_pos (by simp [hid])]
          exact hval
        · rw [if_neg (by simp; exact fun hh => hid hh.symm)]
          exact hmem
      · rw [hrb] at hchar ⊢
        exact hchar

/-- Folding one source's video rows into a catalog whose video table is an
ID-preserving image of a base table containing every chunk ID: the fold
only rewrites rows in place, producing the image under the chunk's
last-write-per-ID function. -/
theorem vchunk_mapform (cid : Nat) (ap : Path) :
    ∀ (vs : List SrcVideo) (g : VideoRow → VideoRow) (base : List VideoRow)
      (c : Catalog),
      (∀ w, (g w).id = w.id) →
      c.videos = base.map g →
      (∀ v ∈ vs, ∃ w ∈ base, w.id = v.youtubeID) →
      (vs.foldl (fun cc v => upsertVideo cc cid ap v) c).videos =
        base.map (fun w =>
          match lastBy (fun v => v.youtubeID == w.id) vs with
          | some v => vidRowOf cid ap v
          | none => g w) ∧
      (vs.foldl (fun cc v => upsertVideo cc cid ap v) c).channels = c.channels ∧
      (vs.foldl (fun cc v => upsertVideo cc cid ap v) c).archives = c.archives ∧
      (vs.foldl (fun cc v => upsertVideo cc cid ap v) c).info = c.info ∧
      (vs.foldl (fun cc v => upsertVideo cc cid ap v) c).nextChannelId =
        c.nextChannelId := by
  intro vs
  induction vs with
  | nil =>
    intro g base c hg hc _
    refine ⟨?_, rfl, rfl, rfl, rfl⟩
    exact hc
  | cons v rest ih =>
    intro g base c hg hc hpres
    have hex : ∃ w ∈ c.videos, w.id = v.youtubeID := by
      obtain ⟨w, hw, hid⟩ := hpres v (by simp)
      exact ⟨g w, by rw [hc]; exact List.mem_map_of_mem _ hw, by rw [hg w, hid]⟩
    have hc1 : (upsertVideo c cid ap v).videos = base.map (fun w =>
        if w.id = v.youtubeID then vidRowOf cid ap v else g w) := by
      rw [upsertVideo_videos, if_pos hex, hc, List.map_map]
      apply List.map_congr_left
      intro w _
      show (if (g w).id = v.youtubeID then
          { g w with channelID := cid, filepath := ap ++ [v.filename],
                     data := v.data, active := true } else g w) =
        (if w.id = v.youtubeID then vidRowOf cid ap v else g w)
      rw [hg w]
      by_cases hid : w.id = v.youtubeID
      · rw [if_pos hid, if_pos hid]
        rcases hgw : g w with ⟨a, b, e, f, j⟩
        have h2 : a = w.id := by
          have h3 := hg w
          rw [hgw] at h3
          exact h3
        have ha : a = v.youtubeID := by rw [h2, hid]
        simp [vidRowOf, ha]
      · rw [if_neg hid, if_neg hid]
    have hg1 : ∀ w, ((fun w => if w.id = v.youtubeID then vidRowOf cid ap v
        else g w) w).id = w.id := by
      intro w
      by_cases hid : w.id = v.youtubeID
      · simp [hid, vidRowOf]
      · simp [hid, hg]
    have hrest := upsertVideo_rest c cid ap v
    have IH := ih (fun w => if w.id = v.youtubeID then vidRowOf cid ap v else g w)
      base (upsertVideo c cid ap v) hg1 hc1 (fun u hu => hpres u (by simp [hu]))
    have hfold : (v :: rest).foldl (fun cc u => upsertVideo cc cid ap u) c =
        rest.foldl (fun cc u => upsertVideo cc cid ap u) (upsertVideo c cid ap v) :=
      rfl
    rw [hfold]
    refine ⟨?_, ?_, ?_, ?_, ?_⟩
    · rw [IH.1]
      apply List.map_congr_left
      intro w _
      rw [lastBy_cons]
      rcases hrb : lastBy (fun u => u.youtubeID == w.id) rest with _ | u
      · simp only [hrb]
        by_cases hid : w.id = v.youtubeID
        · simp [hid]
        · have hid2 : ¬ (v.youtubeID = w.id) := fun hh => hid hh.symm
          simp [hid, hid2]
      · simp only [hrb]
    · rw [IH.2.1, hrest.1]
    · rw [IH.2.2.1, hrest.2.1]
    · rw [IH.2.2.2.1, hrest.2.2.1]
    · rw [IH.2.2.2.2, hrest.2.2.2]

theorem find?_id_updateChannelRows (rows : List ChannelRow) (rp ap : Path)
    (d : ChannelData) (y : Path) :
    ((updateChannelRows rows rp ap d).find? (fun q => q.relpath == y)).map
        ChannelRow.id =
      (rows.find? (fun q => q.relpath == y)).map ChannelRow.id := by
  induction rows with
  | nil => rfl
  | cons r t ih =>
    show ((updateChannelRows (r :: t) rp ap d).find? _).map _ = _
    unfold updateChannelRows
    rw [List.map_cons]
    have hrel : (if r.relpath = rp then
        { r with abspath := ap, data := d, active := true } else r).relpath =
        r.relpath := by
      by_cases h : r.relpath = rp <;> simp [h]
    have hid : (if r.relpath = rp then
        { r with abspath := ap, data := d, active := true } else r).id = r.id := by
      by_cases h : r.relpath = rp <;> simp [h]
    by_cases hy : r.relpath = y
    · rw [List.find?_cons_of_pos _ (by simp only [hrel.trans hy, beq_self_eq_true]),
        List.find?_cons_of_pos _ (by simp [hy])]
      simp [hid]
    · rw [List.find?_cons_of_neg _ (by simp only [hrel, beq_iff_eq]; exact hy),
        List.find?_cons_of_neg _ (by simp [hy])]
      exact ih

theorem selectChannelId_congr {c c' : Catalog} (h : c'.channels = c.channels)
    (y : Path) : selectChannelId c' y = selectChannelId c y := by
  unfold selectChannelId
  rw [h]

/-- The state the explicit upsert produces: the bookkeeping is untouched,
every row either is the freshly written natural-key row or an unrelated row
of the old table, every old row survives with its ID and natural key (and
verbatim when unrelated), the natural key is present afterwards, and the
surrogate-ID lookup of any previously resolvable key is unchanged. -/
theorem upsertChannelSpec_facts (c : Catalog) (rp ap : Path) (d : ChannelData) :
    (upsertChannelSpec c rp ap d).1.videos = c.videos ∧
    (upsertChannelSpec c rp ap d).1.archives = c.archives ∧
    (upsertChannelSpec c rp ap d).1.info = c.info ∧
    (∀ r' ∈ (upsertChannelSpec c rp ap d).1.channels,
      (r'.relpath = rp ∧ r'.abspath = ap ∧ r'.data = d ∧ r'.active = true) ∨
      (r'.relpath ≠ rp ∧ r' ∈ c.channels)) ∧
    (∀ r ∈ c.channels, ∃ r' ∈ (upsertChannelSpec c rp ap d).1.channels,
      r'.id = r.id ∧ r'.relpath = r.relpath ∧ (r.relpath ≠ rp → r' = r)) ∧
    (∃ r' ∈ (upsertChannelSpec c rp ap d).1.channels, r'.relpath = rp) ∧
    (∀ y : Path, selectChannelId c y ≠ none →
      selectChannelId (upsertChannelSpec c rp ap d).1 y = selectChannelId c y) := by
  rcases hfind : c.channels.find? (fun r => r.relpath == rp) with _ | r
  · have hno : ∀ q ∈ c.channels, ¬ q.relpath = rp := by
      intro q hq
      have := List.find?_eq_none.mp hfind q hq
      simpa using this
    unfold upsertChannelSpec
    simp only [hfind]
    refine ⟨by trivial, by trivial, by trivial, ?_, ?_, ?_, ?_⟩
    · intro r' hr'
      rcases List.mem_append.mp hr' with h1 | h1
      · exact Or.inr ⟨hno r' h1, h1⟩
      · rw [List.mem_singleton] at h1
        subst h1
        exact Or.inl ⟨rfl, rfl, rfl, rfl⟩
    · intro r hr
      exact ⟨r, List.mem_append_left _ hr, rfl, rfl, fun _ => rfl⟩
    · exact ⟨⟨c.nextChannelId, rp, ap, d, true⟩, List.mem_append_right _ (by simp),
        rfl⟩
    · intro y hy
      unfold selectChannelId at hy ⊢
      rcases hf : c.channels.find? (fun q => q.relpath == y) with _ | a
      · rw [hf] at hy
        simp at hy
      · show ((c.channels ++ [(⟨c.nextChannelId, rp, ap, d, true⟩ : ChannelRow)]).find?
          (fun q => q.relpath == y)).map ChannelRow.id = _
        rw [List.find?_append, hf]
        rfl
  · unfold upsertChannelSpec
    simp only [hfind]
    refine ⟨by trivial, by trivial, by trivial, ?_, ?_, ?_, ?_⟩
    · intro r' hr'
      obtain ⟨q, hq, rfl⟩ := List.mem_map.mp hr'
      by_cases hqr : q.relpath = rp
      · exact Or.inl ⟨by simp [hqr], by simp [hqr], by simp [hqr], by simp [hqr]⟩
      · rw [if_neg hqr]
        exact Or.inr ⟨hqr, hq⟩
    · intro q hq
      refine ⟨if q.relpath = rp then
          { q with abspath := ap, data := d, active := true } else q,
        List.mem_map_of_mem _ hq, ?_, ?_, ?_⟩
      · by_cases hqr : q.relpath = rp <;> simp [hqr]
      · by_cases hqr : q.relpath = rp <;> simp [hqr]
      · intro hqr
        rw [if_neg hqr]
    · have hmem : r ∈ c.channels := List.mem_of_find?_eq_some hfind
      have hrrp : r.relpath = rp := by
        have := List.find?_some hfind
        simpa using this
      exact ⟨if r.relpath = rp then
          { r with abspath := ap, data := d, active := true } else r,
        List.mem_map_of_mem _ hmem, by simp [hrrp]⟩
    · intro y _
      show ((updateChannelRows c.channels rp ap d).find?
        (fun q => q.relpath == y)).map ChannelRow.id = _
      exact find?_id_updateChannelRows c.channels rp ap d y

theorem mem_vidWrites_elim {fs : Fs} {dirpath : Path} :
    ∀ {P : List Path} {x : Path} {v : SrcVideo},
      (x, v) ∈ vidWrites fs dirpath P →
      x ∈ P ∧ ∃ vs, srcVids fs dirpath x = some vs ∧ v ∈ vs := by
  intro P
  induction P with
  | nil =>
    intro x v h
    cases h
  | cons y ys ih =>
    intro x v h
    have h' : (x, v) ∈ (match srcVids fs dirpath y with
      | some vs => vs.map (fun w => (y, w))
      | none => []) ++ vidWrites fs dirpath ys := h
    rcases List.mem_append.mp h' with h1 | h1
    · rcases hv : srcVids fs dirpath y with _ | vs
      · simp only [hv] at h1
        cases h1
      · simp only [hv] at h1
        obtain ⟨w, hw, hww⟩ := List.mem_map.mp h1
        injection hww with h2 h3
        subst h2
        subst h3
        exact ⟨by simp, vs, hv, hw⟩
    · obtain ⟨hx, hrest⟩ := ih h1
      exact ⟨by simp [hx], hrest⟩

theorem lastVidWrite_elim {fs : Fs} {dirpath : Path} {P : List Path}
    {id : String} {x : Path} {v : SrcVideo}
    (h : lastVidWrite fs dirpath P id = some (x, v)) :
    x ∈ P ∧ (∃ vs, srcVids fs dirpath x = some vs ∧ v ∈ vs) ∧
      v.youtubeID = id := by
  obtain ⟨hmem, hp⟩ := lastBy_mem h
  obtain ⟨hx, hvs⟩ := mem_vidWrites_elim hmem
  exact ⟨hx, hvs, by simpa using hp⟩

/-- The invariant a pass maintains while folding over its candidates: `L`
is the full discovered list, `P` the processed prefix.  It records the two
uniqueness invariants, that no row occupies a candidate's absolute path
under a foreign natural key, and together the postconditions of the
processed prefix: every touched channel key has a row carrying the
source's data (active, at the recomputed absolute path), untouched rows are
inactive, every written video ID has a row carrying the last write against
it (wired to the key's surrogate ID), and unwritten video rows are
inactive. -/
structure Inv1 (fs : Fs) (dirpath : Path) (L P : List Path) (s : Catalog) :
    Prop where
  ndc : (s.channels.map ChannelRow.relpath).Nodup
  ndv : (s.videos.map VideoRow.id).Nodup
  nostale : ∀ x ∈ L, ∀ r ∈ s.channels, r.abspath = dirpath ++ x → r.relpath = x
  presC : ∀ x ∈ P, srcChan fs dirpath x ≠ none → ∃ r ∈ s.channels, r.relpath = x
  freshC : ∀ r ∈ s.channels, r.relpath ∈ P → srcChan fs dirpath r.relpath ≠ none →
    r.abspath = dirpath ++ r.relpath ∧
    (∀ d, srcChan fs dirpath r.relpath = some d → r.data = d) ∧ r.active = true
  staleC : ∀ r ∈ s.channels,
    r.relpath ∉ P ∨ srcChan fs dirpath r.relpath = none → r.active = false
  presV : ∀ id : String, lastVidWrite fs dirpath P id ≠ none →
    ∃ w ∈ s.videos, w.id = id
  freshV : ∀ w ∈ s.videos, ∀ x v, lastVidWrite fs dirpath P w.id = some (x, v) →
    selectChannelId s x = some w.channelID ∧
    w.filepath = (dirpath ++ x) ++ [v.filename] ∧ w.data = v.data ∧
    w.active = true
  staleV : ∀ w ∈ s.videos, lastVidWrite fs dirpath P w.id = none →
    w.active = false

theorem inv1_step (fs : Fs) (dirpath : Path) (L P : List Path) (x : Path)
    (s : Catalog) (hxL : x ∈ L) (hInv : Inv1 fs dirpath L P s) :
    ∃ s', processSource fs dirpath s x = .ok s' ∧
      Inv1 fs dirpath L (P ++ [x]) s' ∧
      s'.archives = s.archives ∧ s'.info = s.info := by
  rw [processSource_eq]
  rcases hch : srcChan fs dirpath x with _ | d
  · -- the source is skipped before the channel write: nothing changes
    have hvs0 : srcVids fs dirpath x = none := srcVids_none_of_chan_none hch
    refine ⟨s, rfl, ?_, rfl, rfl⟩
    have hlvw : ∀ id : String, lastVidWrite fs dirpath (P ++ [x]) id =
        lastVidWrite fs dirpath P id := by
      intro id
      rw [lastVidWrite_snoc, hvs0]
    refine ⟨hInv.ndc, hInv.ndv, hInv.nostale, ?_, ?_, ?_, ?_, ?_, ?_⟩
    · intro y hy hne
      rcases List.mem_append.mp hy with hy1 | hy1
      · exact hInv.presC y hy1 hne
      · rw [List.mem_singleton] at hy1
        subst hy1
        exact absurd hch hne
    · intro r hr hrp hne
      rcases List.mem_append.mp hrp with hy1 | hy1
      · exact hInv.freshC r hr hy1 hne
      · rw [List.mem_singleton] at hy1
        rw [hy1] at hne
        exact absurd hch hne
    · intro r hr hcase
      refine hInv.staleC r hr ?_
      rcases hcase with hnot | hnone
      · exact Or.inl fun hmem => hnot (List.mem_append_left _ hmem)
      · exact Or.inr hnone
    · intro id hne
      rw [hlvw] at hne
      exact hInv.presV id hne
    · intro w hw y v hlast
      rw [hlvw] at hlast
      exact hInv.freshV w hw y v hlast
    · intro w hw hlast
      rw [hlvw] at hlast
      exact hInv.staleV w hw hlast
  · -- channel write for `x`
    have hap : ∀ r ∈ s.channels, r.abspath = dirpath ++ x → r.relpath = x :=
      hInv.nostale x hxL
    obtain ⟨hw, hcount, hnd1, hsel1⟩ :=
      writeChannel_spec_aux s x (dirpath ++ x) d hap hInv.ndc
    obtain ⟨hvid1, harc1, hinfo1, hpoint1, himg1, hpres1, hstab1⟩ :=
      upsertChannelSpec_facts s x (dirpath ++ x) d
    simp only [hw]
    -- facts about the channel-written state, before the videos
    have hndc1 : ((upsertChannelSpec s x (dirpath ++ x) d).1.channels.map
        ChannelRow.relpath).Nodup := hnd1
    have hndv1 : ((upsertChannelSpec s x (dirpath ++ x) d).1.videos.map
        VideoRow.id).Nodup := by
      rw [hvid1]
      exact hInv.ndv
    have hnostale1 : ∀ y ∈ L, ∀ r' ∈ (upsertChannelSpec s x (dirpath ++ x) d).1.channels,
        r'.abspath = dirpath ++ y → r'.relpath = y := by
      intro y hy r' hr' hab
      rcases hpoint1 r' hr' with ⟨h1, h2, -, -⟩ | ⟨-, h2⟩
      · rw [h2] at hab
        have := List.append_cancel_left hab
        rw [h1, this]
      · exact hInv.nostale y hy r' h2 hab
    have hpresC1 : ∀ y ∈ P ++ [x], srcChan fs dirpath y ≠ none →
        ∃ r' ∈ (upsertChannelSpec s x (dirpath ++ x) d).1.channels,
          r'.relpath = y := by
      intro y hy hne
      rcases List.mem_append.mp hy with hy1 | hy1
      · obtain ⟨r, hr, hrel⟩ := hInv.presC y hy1 hne
        obtain ⟨r', hr', -, hrel', -⟩ := himg1 r hr
        exact ⟨r', hr', by rw [hrel', hrel]⟩
      · rw [List.mem_singleton] at hy1
        subst hy1
        exact hpres1
    have hfreshC1 : ∀ r' ∈ (upsertChannelSpec s x (dirpath ++ x) d).1.channels,
        r'.relpath ∈ P ++ [x] → srcChan fs dirpath r'.relpath ≠ none →
        r'.abspath = dirpath ++ r'.relpath ∧
        (∀ d', srcChan fs dirpath r'.relpath = some d' → r'.data = d') ∧
        r'.active = true := by
      intro r' hr' hrp hne
      rcases hpoint1 r' hr' with ⟨h1, h2, h3, h4⟩ | ⟨h1, h2⟩
      · subst h1
        refine ⟨by rw [h2], ?_, h4⟩
        intro d' hd'
        rw [hch] at hd'
        injection hd' with hd'
        rw [h3, hd']
      · rcases List.mem_append.mp hrp with hy1 | hy1
        · exact hInv.freshC r' h2 hy1 hne
        · rw [List.mem_singleton] at hy1
          exact absurd hy1 h1
    have hstaleC1 : ∀ r' ∈ (upsertChannelSpec s x (dirpath ++ x) d).1.channels,
        r'.relpath ∉ P ++ [x] ∨ srcChan fs dirpath r'.relpath = none →
        r'.active = false := by
      intro r' hr' hcase
      rcases hpoint1 r' hr' with ⟨h1, -, -, -⟩ | ⟨h1, h2⟩
      · rcases hcase with hnot | hnone
        · exact absurd (List.mem_append_right _ (by rw [h1]; exact List.mem_singleton.mpr rfl)) hnot
        · rw [h1, hch] at hnone
          cases hnone
      · refine hInv.staleC r' h2 ?_
        rcases hcase with hnot | hnone
        · exact Or.inl fun hmem => hnot (List.mem_append_left _ hmem)
        · exact Or.inr hnone
    have hstab1' : ∀ y : Path, ∀ n : Nat, selectChannelId s y = some n →
        selectChannelId (upsertChannelSpec s x (dirpath ++ x) d).1 y = some n := by
      intro y n hn
      rw [hstab1 y (by rw [hn]; exact fun hh => Option.noConfusion hh)]
      exact hn
    rcases hvs : srcVids fs dirpath x with _ | vs
    · -- video read failed (or skipped): state is the channel-written one
      simp only [hvs]
      refine ⟨_, rfl, ?_, harc1, hinfo1⟩
      have hlvw : ∀ id : String, lastVidWrite fs dirpath (P ++ [x]) id =
          lastVidWrite fs dirpath P id := by
        intro id
        rw [lastVidWrite_snoc, hvs]
      refine ⟨hndc1, hndv1, hnostale1, hpresC1, hfreshC1, hstaleC1, ?_, ?_, ?_⟩
      · intro id hne
        rw [hlvw] at hne
        obtain ⟨w, hw', hid⟩ := hInv.presV id hne
        exact ⟨w, by rw [hvid1]; exact hw', hid⟩
      · intro w hw' y v hlast
        rw [hlvw] at hlast
        rw [hvid1] at hw'
        obtain ⟨hc1, hc2, hc3, hc4⟩ := hInv.freshV w hw' y v hlast
        exact ⟨hstab1' y w.channelID hc1, hc2, hc3, hc4⟩
      · intro w hw' hlast
        rw [hlvw] at hlast
        rw [hvid1] at hw'
        exact hInv.staleV w hw' hlast
    · -- videos of `x` are folded in
      simp only [hvs]
      have CH := vchunk_pointwise (upsertChannelSpec s x (dirpath ++ x) d).2
        (dirpath ++ x) vs (upsertChannelSpec s x (dirpath ++ x) d).1 hndv1
      refine ⟨_, rfl, ?_, ?_, ?_⟩
      · have hchn : (vs.foldl (fun cc v => upsertVideo cc
            (upsertChannelSpec s x (dirpath ++ x) d).2 (dirpath ++ x) v)
            (upsertChannelSpec s x (dirpath ++ x) d).1).channels =
            (upsertChannelSpec s x (dirpath ++ x) d).1.channels := CH.1.1
        have hsel2 : ∀ y : Path, selectChannelId
            (vs.foldl (fun cc v => upsertVideo cc
              (upsertChannelSpec s x (dirpath ++ x) d).2 (dirpath ++ x) v)
              (upsertChannelSpec s x (dirpath ++ x) d).1) y =
            selectChannelId (upsertChannelSpec s x (dirpath ++ x) d).1 y :=
          fun y => selectChannelId_congr hchn y
        refine ⟨?_, CH.2.1, ?_, ?_, ?_, ?_, ?_, ?_, ?_⟩
        · rw [hchn]
          exact hndc1
        · intro y hy r' hr' hab
          rw [hchn] at hr'
          exact hnostale1 y hy r' hr' hab
        · intro y hy hne
          rw [hchn]
          exact hpresC1 y hy hne
        · intro r' hr' hrp hne
          rw [hchn] at hr'
          exact hfreshC1 r' hr' hrp hne
        · intro r' hr' hcase
          rw [hchn] at hr'
          exact hstaleC1 r' hr' hcase
        · intro id hne
          rw [lastVidWrite_snoc] at hne
          simp only [hvs] at hne
          rcases hlb : lastBy (fun v => v.youtubeID == id) vs with _ | v
          · rw [hlb] at hne
            obtain ⟨w, hw', hid⟩ := hInv.presV id hne
            exact CH.2.2.1 id ⟨w, by rw [hvid1]; exact hw', hid⟩
          · obtain ⟨hvmem, hveq⟩ := lastBy_mem hlb
            obtain ⟨w', hw', hid⟩ := CH.2.2.2.1 v hvmem
            exact ⟨w', hw', by rw [hid]; simpa using hveq⟩
        · intro w' hw' y v hlast
          rw [lastVidWrite_snoc] at hlast
          simp only [hvs] at hlast
          have hchar := CH.2.2.2.2 w' hw'
          rcases hlb : lastBy (fun u => u.youtubeID == w'.id) vs with _ | u
          · rw [hlb] at hlast hchar
            have hw'' : w' ∈ (upsertChannelSpec s x (dirpath ++ x) d).1.videos :=
              hchar
            rw [hvid1] at hw''
            obtain ⟨hc1, hc2, hc3, hc4⟩ := hInv.freshV w' hw'' y v hlast
            rw [hsel2]
            exact ⟨hstab1' y w'.channelID hc1, hc2, hc3, hc4⟩
          · rw [hlb] at hlast hchar
            injection hlast with hlast
            injection hlast with hl1 hl2
            subst hl1
            subst hl2
            rw [hchar]
            refine ⟨?_, rfl, rfl, rfl⟩
            rw [hsel2]
            have : (vidRowOf (upsertChannelSpec s x (dirpath ++ x) d).2
                (dirpath ++ x) u).channelID =
                (upsertChannelSpec s x (dirpath ++ x) d).2 := rfl
            rw [this]
            exact hsel1
        · intro w' hw' hlast
          rw [lastVidWrite_snoc] at hlast
          simp only [hvs] at hlast
          have hchar := CH.2.2.2.2 w' hw'
          rcases hlb : lastBy (fun u => u.youtubeID == w'.id) vs with _ | u
          · rw [hlb] at hlast hchar
            have hw'' : w' ∈ (upsertChannelSpec s x (dirpath ++ x) d).1.videos :=
              hchar
            rw [hvid1] at hw''
            exact hInv.staleV w' hw'' hlast
          · rw [hlb] at hlast
            cases hlast
      · rw [CH.1.2.1, harc1]
      · rw [CH.1.2.2.1, hinfo1]

theorem inv1_run (fs : Fs) (dirpath : Path) (L : List Path) :
    ∀ (rest P : List Path) (s : Catalog),
      (∀ x ∈ rest, x ∈ L) → Inv1 fs dirpath L P s →
      ∃ e, processAll fs dirpath rest s = .ok e ∧
        Inv1 fs dirpath L (P ++ rest) e ∧
        e.archives = s.archives ∧ e.info = s.info := by
  intro rest
  induction rest with
  | nil =>
    intro P s _ hInv
    exact ⟨s, rfl, by rw [List.append_nil]; exact hInv, rfl, rfl⟩
  | cons x xs ih =>
    intro P s hsub hInv
    obtain ⟨s', hps, hInv', harc, hinfo⟩ :=
      inv1_step fs dirpath L P x s (hsub x (by simp)) hInv
    obtain ⟨e, hpa, hInvE, harcE, hinfoE⟩ :=
      ih (P ++ [x]) s' (fun y hy => hsub y (by simp [hy])) hInv'
    refine ⟨e, ?_, ?_, ?_, ?_⟩
    · simp only [processAll, hps]
      exact hpa
    · rw [List.append_assoc] at hInvE
      exact hInvE
    · rw [harcE, harc]
    · rw [hinfoE, hinfo]

theorem inv1_init (fs : Fs) (dirpath : Path) (L : List Path) (c : Catalog)
    (hndc : (c.channels.map ChannelRow.relpath).Nodup)
    (hndv : (c.videos.map VideoRow.id).Nodup)
    (hstale : ∀ x ∈ L, ∀ r ∈ c.channels, r.abspath = dirpath ++ x →
      r.relpath = x) :
    Inv1 fs dirpath L [] (deactivateAll c) := by
  have hch : (deactivateAll c).channels =
      c.channels.map (fun r => { r with active := false }) := rfl
  have hvd : (deactivateAll c).videos =
      c.videos.map (fun w => { w with active := false }) := rfl
  have hlvw : ∀ id : String, lastVidWrite fs dirpath [] id = none := fun _ => rfl
  constructor
  · rw [hch, List.map_map]
    have : (ChannelRow.relpath ∘ fun r => { r with active := false }) =
        ChannelRow.relpath := rfl
    rw [this]
    exact hndc
  · rw [hvd, List.map_map]
    have : (VideoRow.id ∘ fun w => { w with active := false }) = VideoRow.id := rfl
    rw [this]
    exact hndv
  · intro x hx r' hr' hab
    rw [hch] at hr'
    obtain ⟨r, hr, rfl⟩ := List.mem_map.mp hr'
    exact hstale x hx r hr hab
  · intro x hx
    cases hx
  · intro r' _ hrp
    cases hrp
  · intro r' hr' _
    rw [hch] at hr'
    obtain ⟨r, hr, rfl⟩ := List.mem_map.mp hr'
    rfl
  · intro id hne
    exact absurd (hlvw id) hne
  · intro w' _ y v hlast
    rw [hlvw] at hlast
    cases hlast
  · intro w' hw' _
    rw [hvd] at hw'
    obtain ⟨w, hw, rfl⟩ := List.mem_map.mp hw'
    rfl

/-- Pointwise channel state of the second pass after prefix `P`: rows whose
key was already re-synchronized carry their final (first-pass) value, the
rest are still deactivated. -/
def maskC (fs : Fs) (dirpath : Path) (P : List Path) (r : ChannelRow) :
    ChannelRow :=
  if r.relpath ∈ P ∧ srcChan fs dirpath r.relpath ≠ none then r
  else { r with active := false }

/-- Pointwise video state of the second pass after prefix `P`: rows whose ID
was already rewritten carry the last write issued by the prefix (wired to
the first-pass surrogate IDs of `e`), the rest are still deactivated. -/
def maskV (fs : Fs) (dirpath : Path) (e : Catalog) (P : List Path)
    (w : VideoRow) : VideoRow :=
  match lastVidWrite fs dirpath P w.id with
  | some (x, v) =>
    { w with channelID := (selectChannelId e x).getD 0,
             filepath := (dirpath ++ x) ++ [v.filename], data := v.data,
             active := true }
  | none => { w with active := false }

theorem maskC_relpath (fs : Fs) (dirpath : Path) (P : List Path)
    (r : ChannelRow) : (maskC fs dirpath P r).relpath = r.relpath := by
  unfold maskC
  split <;> rfl

theorem maskC_id (fs : Fs) (dirpath : Path) (P : List Path) (r : ChannelRow) :
    (maskC fs dirpath P r).id = r.id := by
  unfold maskC
  split <;> rfl

theorem maskC_abspath (fs : Fs) (dirpath : Path) (P : List Path)
    (r : ChannelRow) : (maskC fs dirpath P r).abspath = r.abspath := by
  unfold maskC
  split <;> rfl

theorem maskV_id (fs : Fs) (dirpath : Path) (e : Catalog) (P : List Path)
    (w : VideoRow) : (maskV fs dirpath e P w).id = w.id := by
  unfold maskV
  rcases lastVidWrite fs dirpath P w.id with _ | ⟨x, v⟩ <;> rfl

theorem find?_id_map_preserve (f : ChannelRow → ChannelRow)
    (hrel : ∀ r, (f r).relpath = r.relpath) (hid : ∀ r, (f r).id = r.id)
    (l : List ChannelRow) (y : Path) :
    ((l.map f).find? (fun q => q.relpath == y)).map ChannelRow.id =
      (l.find? (fun q => q.relpath == y)).map ChannelRow.id := by
  induction l with
  | nil => rfl
  | cons r t ih =>
    rw [List.map_cons]
    by_cases hy : r.relpath = y
    · rw [List.find?_cons_of_pos _ (by simp only [(hrel r).trans hy, beq_self_eq_true]),
        List.find?_cons_of_pos _ (by simp [hy])]
      simp [hid r]
    · rw [List.find?_cons_of_neg _ (by simp only [hrel r, beq_iff_eq]; exact hy),
        List.find?_cons_of_neg _ (by simp [hy])]
      exact ih

theorem channelRow_eta {r : ChannelRow} (hact : r.active = false) :
    ({ r with active := false } : ChannelRow) = r := by
  cases r
  simp only at hact
  rw [hact]

theorem videoRow_eta {w : VideoRow} (hact : w.active = false) :
    ({ w with active := false } : VideoRow) = w := by
  cases w
  simp only at hact
  rw [hact]

theorem catalogExt {a b : Catalog} (h1 : a.info = b.info)
    (h2 : a.archives = b.archives) (h3 : a.channels = b.channels)
    (h4 : a.videos = b.videos) (h5 : a.nextChannelId = b.nextChannelId) :
    a = b := by
  cases a
  cases b
  simp only at h1 h2 h3 h4 h5
  rw [h1, h2, h3, h4, h5]

theorem infoRowExt {a b : InfoRow} (h1 : a.lastupdate = b.lastupdate)
    (h2 : a.channels = b.channels) (h3 : a.videos = b.videos)
    (h4 : a.dbversion = b.dbversion) : a = b := by
  cases a
  cases b
  simp only at h1 h2 h3 h4
  rw [h1, h2, h3, h4]

theorem channelRowExt {a b : ChannelRow} (h1 : a.id = b.id)
    (h2 : a.relpath = b.relpath) (h3 : a.abspath = b.abspath)
    (h4 : a.data = b.data) (h5 : a.active = b.active) : a = b := by
  cases a
  cases b
  simp only at h1 h2 h3 h4 h5
  rw [h1, h2, h3, h4, h5]

theorem videoRowExt {a b : VideoRow} (h1 : a.id = b.id)
    (h2 : a.channelID = b.channelID) (h3 : a.filepath = b.filepath)
    (h4 : a.data = b.data) (h5 : a.active = b.active) : a = b := by
  cases a
  cases b
  simp only at h1 h2 h3 h4 h5
  rw [h1, h2, h3, h4, h5]

theorem maskC_override (fs : Fs) (dirpath : Path) (P : List Path)
    (r : ChannelRow) (ap : Path) (d : ChannelData) :
    ({ maskC fs dirpath P r with abspath := ap, data := d, active := true } :
      ChannelRow) = { r with abspath := ap, data := d, active := true } := by
  unfold maskC
  split <;> rfl

theorem inv2_step (fs : Fs) (dirpath : Path) (L P : List Path) (x : Path)
    (e s2 : Catalog) (hxL : x ∈ L) (hE : Inv1 fs dirpath L L e)
    (hchan : s2.channels = e.channels.map (maskC fs dirpath P))
    (hvids : s2.videos = e.videos.map (maskV fs dirpath e P))
    (hnext : s2.nextChannelId = e.nextChannelId) :
    ∃ s2', processSource fs dirpath s2 x = .ok s2' ∧
      s2'.channels = e.channels.map (maskC fs dirpath (P ++ [x])) ∧
      s2'.videos = e.videos.map (maskV fs dirpath e (P ++ [x])) ∧
      s2'.nextChannelId = e.nextChannelId ∧
      s2'.archives = s2.archives ∧ s2'.info = s2.info := by
  rw [processSource_eq]
  rcases hch : srcChan fs dirpath x with _ | d
  · -- the source is skipped: the masks do not move
    have hvs0 := srcVids_none_of_chan_none hch
    refine ⟨s2, rfl, ?_, ?_, hnext, rfl, rfl⟩
    · rw [hchan]
      apply List.map_congr_left
      intro r _
      unfold maskC
      by_cases hrx : r.relpath = x
      · rw [if_neg (fun h => h.2 (by rw [hrx]; exact hch)),
          if_neg (fun h => h.2 (by rw [hrx]; exact hch))]
      · by_cases hcond : r.relpath ∈ P ∧ srcChan fs dirpath r.relpath ≠ none
        · rw [if_pos hcond,
            if_pos ⟨List.mem_append_left _ hcond.1, hcond.2⟩]
        · rw [if_neg hcond,
            if_neg (fun h => hcond ⟨(List.mem_append.mp h.1).resolve_right
              (fun hm => hrx (List.mem_singleton.mp hm)), h.2⟩)]
    · rw [hvids]
      apply List.map_congr_left
      intro w _
      have hsn : lastVidWrite fs dirpath (P ++ [x]) w.id =
          lastVidWrite fs dirpath P w.id := by
        rw [lastVidWrite_snoc, hvs0]
      unfold maskV
      rw [hsn]
  · -- the channel of `x` is rewritten in place
    have hmapsel : ∀ y : Path, selectChannelId s2 y = selectChannelId e y := by
      intro y
      unfold selectChannelId
      rw [hchan]
      exact find?_id_map_preserve _ (maskC_relpath fs dirpath P)
        (maskC_id fs dirpath P) e.channels y
    have hap2 : ∀ r ∈ s2.channels, r.abspath = dirpath ++ x → r.relpath = x := by
      intro r hr hab
      rw [hchan] at hr
      obtain ⟨q, hq, rfl⟩ := List.mem_map.mp hr
      rw [maskC_abspath] at hab
      rw [maskC_relpath]
      exact hE.nostale x hxL q hq hab
    have hnd2 : (s2.channels.map ChannelRow.relpath).Nodup := by
      rw [hchan, List.map_map]
      have hcomp : (ChannelRow.relpath ∘ maskC fs dirpath P) = ChannelRow.relpath :=
        funext (maskC_relpath fs dirpath P)
      rw [hcomp]
      exact hE.ndc
    obtain ⟨hw, hcount, hnd1, hsel1⟩ :=
      writeChannel_spec_aux s2 x (dirpath ++ x) d hap2 hnd2
    simp only [hw]
    have hchne : srcChan fs dirpath x ≠ none := by
      rw [hch]
      exact fun h => Option.noConfusion h
    obtain ⟨re, hre, hrex⟩ := hE.presC x hxL hchne
    obtain ⟨r2, hfind2⟩ : ∃ r2, s2.channels.find? (fun r => r.relpath == x) =
        some r2 := by
      rcases hf : s2.channels.find? (fun r => r.relpath == x) with _ | r2
      · exfalso
        have hcontra := List.find?_eq_none.mp hf (maskC fs dirpath P re)
          (by rw [hchan]; exact List.mem_map_of_mem _ hre)
        rw [maskC_relpath] at hcontra
        exact hcontra (by simp [hrex])
      · exact ⟨r2, hf⟩
    have hspec1 : (upsertChannelSpec s2 x (dirpath ++ x) d).1 =
        { s2 with channels := updateChannelRows s2.channels x (dirpath ++ x) d } := by
      unfold upsertChannelSpec
      rw [hfind2]
      rfl
    have hspec2 : (upsertChannelSpec s2 x (dirpath ++ x) d).2 = r2.id := by
      unfold upsertChannelSpec
      rw [hfind2]
    have hselx : selectChannelId e x = some r2.id := by
      rw [← hmapsel x]
      unfold selectChannelId
      rw [hfind2]
      rfl
    have hupd : updateChannelRows s2.channels x (dirpath ++ x) d =
        e.channels.map (maskC fs dirpath (P ++ [x])) := by
      rw [hchan]
      unfold updateChannelRows
      rw [List.map_map]
      apply List.map_congr_left
      intro r hr
      show (if (maskC fs dirpath P r).relpath = x then
          { maskC fs dirpath P r with abspath := dirpath ++ x, data := d, active := true }
        else maskC fs dirpath P r) = maskC fs dirpath (P ++ [x]) r
      by_cases hrx : r.relpath = x
      · rw [if_pos (by rw [maskC_relpath]; exact hrx), maskC_override]
        have hcondx : r.relpath ∈ P ++ [x] ∧
            srcChan fs dirpath r.relpath ≠ none :=
          ⟨List.mem_append_right _ (by rw [hrx]; simp),
            by rw [hrx]; exact hchne⟩
        rw [show maskC fs dirpath (P ++ [x]) r = r from by
          unfold maskC; rw [if_pos hcondx]]
        obtain ⟨hab, hdata, hact⟩ := hE.freshC r hr (by rw [hrx]; exact hxL)
          (by rw [hrx]; exact hchne)
        have hdd : r.data = d := hdata d (by rw [hrx]; exact hch)
        refine channelRowExt rfl rfl ?_ ?_ ?_
        · show dirpath ++ x = r.abspath
          rw [hab, hrx]
        · show d = r.data
          rw [hdd]
        · show true = r.active
          rw [hact]
      · rw [if_neg (by rw [maskC_relpath]; exact hrx)]
        unfold maskC
        by_cases hcond : r.relpath ∈ P ∧ srcChan fs dirpath r.relpath ≠ none
        · rw [if_pos hcond,
            if_pos ⟨List.mem_append_left _ hcond.1, hcond.2⟩]
        · rw [if_neg hcond,
            if_neg (fun h => hcond ⟨(List.mem_append.mp h.1).resolve_right
              (fun hm => hrx (List.mem_singleton.mp hm)), h.2⟩)]
    rcases hvs : srcVids fs dirpath x with _ | vs
    · -- video read failed: only the channel part moved
      simp only [hvs]
      refine ⟨_, rfl, ?_, ?_, ?_, ?_, ?_⟩
      · rw [hspec1]
        exact hupd
      · rw [hspec1]
        show s2.videos = _
        rw [hvids]
        apply List.map_congr_left
        intro w _
        have hsn : lastVidWrite fs dirpath (P ++ [x]) w.id =
            lastVidWrite fs dirpath P w.id := by
          rw [lastVidWrite_snoc, hvs]
        unfold maskV
        rw [hsn]
      · rw [hspec1]
        exact hnext
      · rw [hspec1]
      · rw [hspec1]
    · -- videos of `x` rewrite their rows in place
      simp only [hvs]
      have hpresvs : ∀ v ∈ vs, ∃ w ∈ e.videos, w.id = v.youtubeID := by
        intro v hv
        exact hE.presV v.youtubeID (lastVidWrite_mem_of_write hxL hvs hv)
      have hcvids : (upsertChannelSpec s2 x (dirpath ++ x) d).1.videos =
          e.videos.map (maskV fs dirpath e P) := by
        rw [hspec1]
        exact hvids
      have CH := vchunk_mapform (upsertChannelSpec s2 x (dirpath ++ x) d).2
        (dirpath ++ x) vs (maskV fs dirpath e P) e.videos
        (upsertChannelSpec s2 x (dirpath ++ x) d).1
        (maskV_id fs dirpath e P) hcvids hpresvs
      refine ⟨_, rfl, ?_, ?_, ?_, ?_, ?_⟩
      · rw [CH.2.1, hspec1]
        exact hupd
      · rw [CH.1]
        apply List.map_congr_left
        intro w _
        rcases hlb : lastBy (fun v => v.youtubeID == w.id) vs with _ | v
        · simp only [hlb]
          have hsn2 : lastVidWrite fs dirpath (P ++ [x]) w.id =
              lastVidWrite fs dirpath P w.id := by
            rw [lastVidWrite_snoc]
            simp only [hvs, hlb]
          show maskV fs dirpath e P w = maskV fs dirpath e (P ++ [x]) w
          unfold maskV
          rw [hsn2]
        · simp only [hlb]
          have hsn2 : lastVidWrite fs dirpath (P ++ [x]) w.id = some (x, v) := by
            rw [lastVidWrite_snoc]
            simp only [hvs, hlb]
          have hwid : v.youtubeID = w.id := by
            have hm := (lastBy_mem hlb).2
            simpa using hm
          show vidRowOf (upsertChannelSpec s2 x (dirpath ++ x) d).2
              (dirpath ++ x) v = maskV fs dirpath e (P ++ [x]) w
          unfold maskV
          simp only [hsn2]
          refine videoRowExt ?_ ?_ rfl rfl rfl
          · show v.youtubeID = w.id
            exact hwid
          · show (upsertChannelSpec s2 x (dirpath ++ x) d).2 =
              (selectChannelId e x).getD 0
            rw [hspec2, hselx]
            rfl
      · rw [CH.2.2.2.2, hspec1]
        exact hnext
      · rw [CH.2.2.1, hspec1]
      · rw [CH.2.2.2.1, hspec1]

theorem inv2_run (fs : Fs) (dirpath : Path) (L : List Path) (e : Catalog)
    (hE : Inv1 fs dirpath L L e) :
    ∀ (rest P : List Path) (s2 : Catalog), (∀ x ∈ rest, x ∈ L) →
      s2.channels = e.channels.map (maskC fs dirpath P) →
      s2.videos = e.videos.map (maskV fs dirpath e P) →
      s2.nextChannelId = e.nextChannelId →
      ∃ s2', processAll fs dirpath rest s2 = .ok s2' ∧
        s2'.channels = e.channels.map (maskC fs dirpath (P ++ rest)) ∧
        s2'.videos = e.videos.map (maskV fs dirpath e (P ++ rest)) ∧
        s2'.nextChannelId = e.nextChannelId ∧
        s2'.archives = s2.archives ∧ s2'.info = s2.info := by
  intro rest
  induction rest with
  | nil =>
    intro P s2 _ hc hv hn
    exact ⟨s2, rfl, by rw [List.append_nil]; exact hc,
      by rw [List.append_nil]; exact hv, hn, rfl, rfl⟩
  | cons x xs ih =>
    intro P s2 hsub hc hv hn
    obtain ⟨t, hps, htc, htv, htn, hta, hti⟩ :=
      inv2_step fs dirpath L P x e s2 (hsub x (by simp)) hE hc hv hn
    obtain ⟨s2', hrun, hc', hv', hn', ha', hi'⟩ :=
      ih (P ++ [x]) t (fun y hy => hsub y (by simp [hy])) htc htv htn
    refine ⟨s2', ?_, ?_, ?_, hn', ?_, ?_⟩
    · show processAll fs dirpath (x :: xs) s2 = .ok s2'
      unfold processAll
      rw [hps]
      exact hrun
    · rw [hc']
      simp only [List.append_assoc, List.singleton_append]
    · rw [hv']
      simp only [List.append_assoc, List.singleton_append]
    · rw [ha', hta]
    · rw [hi', hti]

theorem maskC_nil (fs : Fs) (dirpath : Path) (r : ChannelRow) :
    maskC fs dirpath [] r = { r with active := false } := by
  unfold maskC
  rw [if_neg]
  rintro ⟨h, -⟩
  simp at h

theorem maskV_nil (fs : Fs) (dirpath : Path) (e : Catalog) (w : VideoRow) :
    maskV fs dirpath e [] w = { w with active := false } := rfl

theorem maskC_fix (fs : Fs) (dirpath : Path) (L : List Path) (e : Catalog)
    (hE : Inv1 fs dirpath L L e) :
    e.channels.map (maskC fs dirpath L) = e.channels := by
  have hpt : ∀ r ∈ e.channels, maskC fs dirpath L r = r := by
    intro r hr
    unfold maskC
    by_cases hcond : r.relpath ∈ L ∧ srcChan fs dirpath r.relpath ≠ none
    · rw [if_pos hcond]
    · rw [if_neg hcond]
      apply channelRow_eta
      apply hE.staleC r hr
      by_cases hmem : r.relpath ∈ L
      · right
        exact not_not.mp (fun hne => hcond ⟨hmem, hne⟩)
      · left
        exact hmem
  rw [List.map_congr_left hpt]
  simp

theorem maskV_fix (fs : Fs) (dirpath : Path) (L : List Path) (e : Catalog)
    (hE : Inv1 fs dirpath L L e) :
    e.videos.map (maskV fs dirpath e L) = e.videos := by
  have hpt : ∀ w ∈ e.videos, maskV fs dirpath e L w = w := by
    intro w hw
    rcases hlv : lastVidWrite fs dirpath L w.id with _ | xv
    · unfold maskV
      rw [hlv]
      exact videoRow_eta (hE.staleV w hw hlv)
    · obtain ⟨x, v⟩ := xv
      obtain ⟨hsel, hfp, hdata, hact⟩ := hE.freshV w hw x v hlv
      unfold maskV
      rw [hlv]
      refine videoRowExt rfl ?_ ?_ ?_ ?_
      · show (selectChannelId e x).getD 0 = w.channelID
        rw [hsel]
        rfl
      · show (dirpath ++ x) ++ [v.filename] = w.filepath
        rw [hfp]
      · show v.data = w.data
        rw [hdata]
      · show true = w.active
        rw [hact]
  rw [List.map_congr_left hpt]
  simp

/-- A working directory whose recursive root `r` carries two marked
subdirectories `x` and `a`. -/
def fsCE : Fs :=
  ⟨[["w"], ["w", "r"], ["w", "r", "x"], ["w", "r", "a"]],
    [(["w", "r", "x"], ⟨true, some 5, some sampleCD, some []⟩),
      (["w", "r", "a"], ⟨true, some 5, some sampleCD, some []⟩)]⟩

/-- A catalog whose row for `r/a` still holds, as its absolute path, the
directory of source `r/x` (it was written under another working
directory): the stale `abspath` blocks the `UPDATE` of the `r/x` row on the
`UNIQUE(abspath)` constraint during the first pass only. -/
def catCE : Catalog :=
  ⟨⟨0, 0, 0, 4⟩, [⟨["r"], true⟩],
    [⟨1, ["r", "x"], ["q"], sampleCD, false⟩,
      ⟨2, ["r", "a"], ["w", "r", "x"], sampleCD, false⟩], [], 3⟩

/-- Counterexample to C9 as stated: against unchanged sources, the first
committed pass over `catCE` ends with one active channel row (source `r/x`
is skipped because its channel `UPDATE` would collide with the stale
`abspath` of the `r/a` row), while the second pass — the collision now gone,
the first pass having rewritten that `abspath` — ends with two; the
active-row counts of the two committed states differ, not only the
timestamp. -/
theorem reIndex_not_idempotent_cex :
    (runPass fsCE ["w"] catCE 10).info.channels = 1 ∧
    (runPass fsCE ["w"] (runPass fsCE ["w"] catCE 10) 11).info.channels = 2 :=
  ⟨rfl, rfl⟩

/-- C9 (corrected): if the catalog's channel relpaths and video IDs are
duplicate-free and no channel row holds the absolute path of a discovered
source under a different relpath, then a second pass against unchanged
sources commits exactly the state of the first pass with only the status
row's `lastupdate` replaced — identical channel and video field values and
identical active-row counters. -/
theorem reIndex_idempotent (fs : Fs) (dirpath : Path) (c c1 : Catalog)
    (t1 t2 : Nat)
    (hndc : (c.channels.map ChannelRow.relpath).Nodup)
    (hndv : (c.videos.map VideoRow.id).Nodup)
    (hap : ∀ x ∈ discoverArchives fs dirpath c.archives, ∀ r ∈ c.channels,
      r.abspath = dirpath ++ x → r.relpath = x)
    (h1 : reIndex fs dirpath c t1 = .ok c1) :
    reIndex fs dirpath c1 t2 =
      .ok { c1 with info := { c1.info with lastupdate := t2 } } := by
  simp only [reIndex] at h1
  split at h1
  · cases h1
  · rename_i hL
    split at h1
    · cases h1
    · rename_i e1 hpa
      injection h1 with hc1
      have hI0 : Inv1 fs dirpath (discoverArchives fs dirpath c.archives) []
          (deactivateAll c) := inv1_init fs dirpath _ c hndc hndv hap
      obtain ⟨e2, hpa', hE, harc, hinfo⟩ := inv1_run fs dirpath
        (discoverArchives fs dirpath c.archives)
        (discoverArchives fs dirpath c.archives) [] (deactivateAll c)
        (fun x hx => hx) hI0
      rw [hpa] at hpa'
      injection hpa' with hee
      subst hee
      rw [List.nil_append] at hE
      have harcc1 : c1.archives = c.archives := by
        rw [← hc1]
        show e1.archives = c.archives
        rw [harc]
        rfl
      simp only [reIndex, harcc1]
      rw [if_neg hL]
      have hdc : (deactivateAll c1).channels =
          e1.channels.map (maskC fs dirpath []) := by
        rw [← hc1]
        show e1.channels.map (fun r => { r with active := false }) =
          e1.channels.map (maskC fs dirpath [])
        exact List.map_congr_left (fun r _ => (maskC_nil fs dirpath r).symm)
      have hdv : (deactivateAll c1).videos =
          e1.videos.map (maskV fs dirpath e1 []) := by
        rw [← hc1]
        show e1.videos.map (fun w => { w with active := false }) =
          e1.videos.map (maskV fs dirpath e1 [])
        exact List.map_congr_left (fun w _ => (maskV_nil fs dirpath e1 w).symm)
      have hdn : (deactivateAll c1).nextChannelId = e1.nextChannelId := by
        rw [← hc1]
        rfl
      obtain ⟨s2', hrun2, hc2, hv2, hn2, ha2, hi2⟩ := inv2_run fs dirpath
        (discoverArchives fs dirpath c.archives) e1 hE
        (discoverArchives fs dirpath c.archives) [] (deactivateAll c1)
        (fun x hx => hx) hdc hdv hdn
      rw [List.nil_append] at hc2 hv2
      rw [hrun2]
      have hch2 : s2'.channels = c1.channels := by
        rw [hc2, maskC_fix fs dirpath _ e1 hE, ← hc1]
        rfl
      have hvd2 : s2'.videos = c1.videos := by
        rw [hv2, maskV_fix fs dirpath _ e1 hE, ← hc1]
        rfl
      have hfinal : updateInfo s2' t2 =
          { c1 with info := { c1.info with lastupdate := t2 } } := by
        apply catalogExt
        · apply infoRowExt
          · rfl
          · show s2'.channels.countP (·.active) = c1.info.channels
            rw [hch2, ← hc1]
            rfl
          · show s2'.videos.countP (·.active) = c1.info.videos
            rw [hvd2, ← hc1]
            rfl
          · show s2'.info.dbversion = c1.info.dbversion
            rw [hi2]
            rfl
        · show s2'.archives = c1.archives
          rw [ha2]
          rfl
        · exact hch2
        · exact hvd2
        · show s2'.nextChannelId = c1.nextChannelId
          rw [hn2, ← hc1]
          rfl
      show Except.ok (updateInfo s2' t2) = _
      rw [hfinal, harcc1]

/-- Witness for C9: a pass over the two good sources of `fsRec` commits
`catRecAfter`; the hypotheses hold at `catNoRegRec`, and the second pass
commits `catRecAfter` again with only the timestamp replaced. -/
theorem reIndex_idempotent_witness :
    ((catNoRegRec.channels.map ChannelRow.relpath).Nodup ∧
      (catNoRegRec.videos.map VideoRow.id).Nodup ∧
      (∀ x ∈ discoverArchives fsRec ["w"] catNoRegRec.archives,
        ∀ r ∈ catNoRegRec.channels, r.abspath = ["w"] ++ x → r.relpath = x) ∧
      reIndex fsRec ["w"] catNoRegRec 42 = .ok catRecAfter) ∧
    reIndex fsRec ["w"] catRecAfter 43 =
      .ok { catRecAfter with
        info := { catRecAfter.info with lastupdate := 43 } } := by
  have hndc : (catNoRegRec.channels.map ChannelRow.relpath).Nodup := by
    simp [catNoRegRec]
  have hndv : (catNoRegRec.videos.map VideoRow.id).Nodup := by
    simp [catNoRegRec]
  have hap : ∀ x ∈ discoverArchives fsRec ["w"] catNoRegRec.archives,
      ∀ r ∈ catNoRegRec.channels, r.abspath = ["w"] ++ x → r.relpath = x := by
    intro x _ r hr
    simp [catNoRegRec] at hr
  have h1 : reIndex fsRec ["w"] catNoRegRec 42 = .ok catRecAfter := by rfl
  exact ⟨⟨hndc, hndv, hap, h1⟩,
    reIndex_idempotent fsRec ["w"] catNoRegRec catRecAfter 42 43
      hndc hndv hap h1⟩

end ArchiveTube
